import Mathlib

/-!
# Magic-number search for orthogonal sliders (`src/utils/magic.cpp`)

A shallow embedding of `get_idx`, `get_table`, `get_hash`, the recursive
closure `rec` of `get_magic`, `get_magic` itself and `main`.

Conventions of the embedding.

* `unsigned long long` values are natural numbers; the only place where the
  64-bit wrap-around matters is the product in `get_hash`, reduced `% 2^64`.
* `int` values are integers.  The conversion of the 64-bit hash to `int hsh`
  keeps the low 32 bits read as a two's-complement number (`toInt`).
* The global arrays `table` and `vis` are functions from the index to the
  stored value.  An access with an index outside `[0, TABLE_SIZE)` and an
  overflowing `cnt++` are undefined behaviour in C++; the embedding reports
  them as `none`.
* The lambda `rec` captures `mul`, `cnt`, `pairs` and the global arrays by
  reference; the embedding passes them explicitly as a `State`.
-/

namespace Magic

/-- The constant `SIZE` (line 4). -/
def SIZE : Nat := 8

/-- The function `get_idx` (lines 60-63): linear index of a square. -/
def get_idx (p : Nat × Nat) : Nat := p.1 * SIZE + p.2

/-- The two relevance loops of `get_table` (lines 67-77): the vector `rel`
after both loops, for the target square `(x, y)`. -/
def rel (x y : Nat) : List (Nat × Nat) :=
  let row := (List.range SIZE).foldl
    (fun (acc : List (Nat × Nat)) i =>
      if 1 ≤ i ∧ i ≤ 6 ∧ i ≠ y then acc ++ [(x, i)] else acc) []
  (List.range SIZE).foldl
    (fun (acc : List (Nat × Nat)) j =>
      if 1 ≤ j ∧ j ≤ 6 ∧ j ≠ x then acc ++ [(j, y)] else acc) row

/-- The local array `int board[SIZE][SIZE]`, read as "is this cell non-zero". -/
abbrev Board := Nat → Nat → Bool

/-- The assignment `board[r][c] = 1`. -/
def Board.mark (b : Board) (sq : Nat × Nat) : Board :=
  fun r c => if r = sq.1 ∧ c = sq.2 then true else b r c

/-- The inner loop of lines 86-93: `j` runs over the positions of `rel`
(the list argument holds `rel[j], rel[j+1], ...`), and for every `j` with
bit `j` of `i` set the square's bit is or-ed into `msk` and its cell of
`board` is set. -/
def occLoop (i : Nat) : List (Nat × Nat) → Nat → Nat × Board → Nat × Board
  | [], _, st => st
  | sq :: rest, j, st =>
    if i &&& (1 <<< j) ≠ 0 then
      occLoop i rest (j + 1) (st.1 ||| (1 <<< get_idx sq), st.2.mark sq)
    else
      occLoop i rest (j + 1) st

/-- One ray loop of lines 94-117: the loop variable runs through the given
list, `cell j` is the square visited at `j`; the square is or-ed into `atk`
and the loop breaks after an occupied cell. -/
def ray (board : Board) (cell : Nat → Nat × Nat) : List Nat → Nat → Nat
  | [], atk => atk
  | j :: js, atk =>
    let atk1 := atk ||| (1 <<< get_idx (cell j))
    if board (cell j).1 (cell j).2 then atk1 else ray board cell js atk1

/-- The values `y, y-1, ..., 0` of a loop `for (j = y; j >= 0; j--)`. -/
def downFrom (y : Nat) : List Nat := (List.range (y + 1)).reverse

/-- The values `y, y+1, ..., SIZE-1` of a loop `for (j = y; j < SIZE; j++)`. -/
def upFrom (y : Nat) : List Nat := List.range' y (SIZE - y)

/-- The body of the outer loop of `get_table` (lines 84-118) for the
enumeration index `i`: the pair `{msk, atk}` that is pushed. -/
def tableEntry (x y : Nat) (rl : List (Nat × Nat)) (i : Nat) : Nat × Nat :=
  let st := occLoop i rl 0 (0, fun _ _ => false)
  let board := st.2
  let atk := ray board (fun j => (x, j)) (downFrom y) 0
  let atk := ray board (fun j => (x, j)) (upFrom y) atk
  let atk := ray board (fun j => (j, y)) (downFrom x) atk
  let atk := ray board (fun j => (j, y)) (upFrom x) atk
  (st.1, atk)

/-- The function `get_table` (lines 65-121), for a target square on the
board (`x, y < 8`, where every shifted index is below 64). -/
def get_table (x y : Nat) : List (Nat × Nat) :=
  let rl := rel x y
  (List.range (1 <<< rl.length)).map (tableEntry x y rl)

/-- The function `get_hash` (lines 123-127) on 64-bit unsigned values. -/
def get_hash (msk mul sh : Nat) : Nat := ((msk >>> sh) * mul) % 2 ^ 64

/-- The constant `TABLE_SIZE` (line 129). -/
def TABLE_SIZE : Nat := 1 <<< 16

/-- The constant `shift` of `get_magic` (line 135). -/
def shift : Nat := 10

/-- Conversion of an unsigned 64-bit value to `int`: the low 32 bits, read in
two's complement. -/
def toInt (v : Nat) : Int :=
  if v % 2 ^ 32 < 2 ^ 31 then ((v % 2 ^ 32 : Nat) : Int)
  else ((v % 2 ^ 32 : Nat) : Int) - 2 ^ 32

/-- Conversion of an `int` to `unsigned long long` (value modulo `2^64`). -/
def toULL (i : Int) : Nat := (i % 2 ^ 64).toNat

/-- Lines 150-152: the value of `hsh` with which `vis` and `table` are
indexed for the occupancy `m` under the candidate `mul`. -/
def hashIndex (m mul : Nat) : Int :=
  let hsh := toInt (get_hash m mul shift)
  if hsh ≥ (TABLE_SIZE : Int) then ((hsh.toNat &&& (TABLE_SIZE - 1) : Nat) : Int) else hsh

/-- The state shared by `get_magic` and its closure `rec`: the captured
locals `mul` and `cnt` and the global arrays `vis` and `table`. -/
structure State where
  /-- The candidate multiplier `ull mul`. -/
  mul : Nat
  /-- The generation counter `int cnt`. -/
  cnt : Int
  /-- The stamp array `int vis[TABLE_SIZE]`. -/
  vis : Int → Int
  /-- The array `ull table[TABLE_SIZE]`. -/
  table : Int → Nat

/-- The largest `int`. -/
def INT_MAX : Int := 2 ^ 31 - 1

/-- Lines 153-157: if the slot `hsh` does not carry the current
generation, stamp it and store the attack set `a` in it. -/
def stamp (s : State) (hsh : Int) (a : Nat) : State :=
  if s.vis hsh ≠ s.cnt then
    { s with vis := Function.update s.vis hsh s.cnt,
             table := Function.update s.table hsh a }
  else s

/-- The loop `for (auto v : pairs)` of lines 148-160 over the remaining
pairs.  `none`: an array access outside `[0, TABLE_SIZE)`;
`some (false, _)`: `return 0`; `some (true, _)`: the loop ran to its end and
the leaf returns 1. -/
def verifyLoop : List (Nat × Nat) → State → Option (Bool × State)
  | [], s => some (true, s)
  | v :: rest, s =>
    let hsh := hashIndex v.1 s.mul
    if hsh < 0 ∨ (TABLE_SIZE : Int) ≤ hsh then none
    else
      let s1 := stamp s hsh v.2
      if s1.table hsh ≠ v.2 then some (false, s1) else verifyLoop rest s1

/-- The branch `n == 64` of `rec` (lines 143-162). -/
def leaf (pairs : List (Nat × Nat)) (k : Nat) (s : State) : Option (Bool × State) :=
  if k = 0 then some (false, s)
  else if s.cnt = INT_MAX then none
  else verifyLoop pairs { s with cnt := s.cnt + 1 }

/-- The statement `mul &= (~(1ULL << n))` for `n < 64`. -/
def clearBit (mul n : Nat) : Nat := mul &&& ((2 ^ 64 - 1) ^^^ (1 <<< n))

/-- The statement `mul |= (1ULL << n)` for `n < 64`. -/
def setBit (mul n : Nat) : Nat := mul ||| (1 <<< n)

/-- The closure `rec` with the distance `d = 64 - n` to the leaf as the
structural argument: `recAux pairs d n k s` is `rec(n, k)` run in state `s`
when `n + d = 64`. -/
def recAux (pairs : List (Nat × Nat)) : Nat → Nat → Nat → State → Option (Bool × State)
  | 0, _, k, s => leaf pairs k s
  | d + 1, n, k, s =>
    match recAux pairs d (n + 1) k { s with mul := clearBit s.mul n } with
    | none => none
    | some (true, s1) => some (true, s1)
    | some (false, s1) =>
      if k > 0 then
        recAux pairs d (n + 1) (k - 1) { s1 with mul := setBit s1.mul n }
      else some (false, s1)

/-- The closure `rec` of `get_magic` (lines 141-176), for `n ≤ 64`.  A call
with `n > 64` would shift by more than 63 bits and never reach the leaf; it
is reported as undefined. -/
def rec (pairs : List (Nat × Nat)) (n k : Nat) (s : State) : Option (Bool × State) :=
  if n ≤ 64 then recAux pairs (64 - n) n k s else none

/-- The loop of lines 177-184 over the remaining budgets.  `none`: undefined
behaviour inside `rec`; `some none`: the loop ended and control reaches
`assert(false)`; `some (some s)`: `rec(0, i)` returned 1 and left the
state `s`, whose `mul` is the accepted candidate. -/
def budgetLoop (pairs : List (Nat × Nat)) : List Nat → State → Option (Option State)
  | [], _ => some none
  | i :: is, s =>
    match rec pairs 0 i s with
    | none => none
    | some (true, s1) => some (some s1)
    | some (false, s1) => budgetLoop pairs is s1

/-- The values `1, ..., 10` of the loop variable `i` of line 177. -/
def budgets : List Nat := List.range' 1 10

/-- The state in which the first `rec(0, 1)` starts: `mul = 0`, `cnt = 0`,
`vis` filled with `-1` by the `memset` and the zero-initialised global
`table`. -/
def initState : State :=
  { mul := 0, cnt := 0, vis := fun _ => -1, table := fun _ => 0 }

/-- The search of `get_magic` over an arbitrary table of pairs (lines
135-185 with `pairs` given). -/
def search (pairs : List (Nat × Nat)) : Option (Option State) :=
  budgetLoop pairs budgets initState

/-- The 64-bit candidate that the search over `pairs` accepts, if it
accepts one. -/
def accepted (pairs : List (Nat × Nat)) : Option Nat :=
  match search pairs with
  | some (some s) => some s.mul
  | _ => none

/-- How a call of `get_magic` ends. -/
inductive Result where
  /-- The statement `return {mul, shift}` with the two `int` members. -/
  | ret (first second : Int)
  /-- The statement `assert(false)` of line 185. -/
  | assertFail
  /-- Undefined behaviour during the search. -/
  | undefined
  deriving DecidableEq, Repr

/-- The conversion `return {mul, shift}` into `pair<int, int>` (line 182). -/
def toResult : Option (Option State) → Result
  | none => Result.undefined
  | some none => Result.assertFail
  | some (some s) => Result.ret (toInt s.mul) (toInt shift)

/-- The function `get_magic` (lines 133-186). -/
def get_magic (x y : Nat) : Result := toResult (search (get_table x y))

/-- The conversion `pair<ull, ull> magic = get_magic(x, y)` of `main`
(line 193): the two numbers that line 194 prints, when `get_magic`
returns. -/
def printed : Result → Option (Nat × Nat)
  | Result.ret a b => some (toULL a, toULL b)
  | _ => none

/-- The function `main` (lines 188-195) for the arguments `x` and `y`: the
two numbers printed, if any. -/
def main (x y : Nat) : Option (Nat × Nat) := printed (get_magic x y)

/-- Number of set bits of a 64-bit value. -/
def popcount (m : Nat) : Nat := ((List.range 64).filter (fun i => m.testBit i)).length

/-! ## The closure with a record of its calls -/

/-- One call of `rec`, recorded when it is entered. -/
structure Call where
  /-- Number of calls of `rec` that enclose this one. -/
  depth : Nat
  /-- The argument `n`. -/
  n : Nat
  /-- The argument `k` (an `int` in the source). -/
  k : Int
  /-- The positions at which enclosing calls took the set-branch, innermost
  first. -/
  path : List Nat
  /-- The shared state when the call is entered. -/
  st : State

/-- The closure `rec` (lines 141-176) with a record of the calls made: the
result of `rec(n, k)` entered at depth `depth` in state `s`, and the calls
in the order in which they are entered.  The budget is an integer as in the
source; `d = 64 - n` is the structural argument as in `recAux`. -/
def recTrace (pairs : List (Nat × Nat)) :
    Nat → Nat → Int → Nat → List Nat → State → Option (Bool × State) × List Call
  | 0, n, k, depth, path, s =>
    (if k = 0 then some (false, s)
     else if s.cnt = INT_MAX then none
     else verifyLoop pairs { s with cnt := s.cnt + 1 },
     [⟨depth, n, k, path, s⟩])
  | d + 1, n, k, depth, path, s =>
    let r1 := recTrace pairs d (n + 1) k (depth + 1) path { s with mul := clearBit s.mul n }
    match r1.1 with
    | none => (none, ⟨depth, n, k, path, s⟩ :: r1.2)
    | some (true, s1) => (some (true, s1), ⟨depth, n, k, path, s⟩ :: r1.2)
    | some (false, s1) =>
      if k > 0 then
        let r2 := recTrace pairs d (n + 1) (k - 1) (depth + 1) (n :: path)
          { s1 with mul := setBit s1.mul n }
        (r2.1, ⟨depth, n, k, path, s⟩ :: (r1.2 ++ r2.2))
      else (some (false, s1), ⟨depth, n, k, path, s⟩ :: r1.2)

/-- The calls made by a top-level call `rec(n, k)` (for `n ≤ 64`) started in
state `s`, with its result. -/
def traceRec (pairs : List (Nat × Nat)) (n : Nat) (k : Int) (s : State) :
    Option (Bool × State) × List Call :=
  recTrace pairs (64 - n) n k 0 [] s

/-- The loop of lines 177-184 with the record of all calls of `rec`. -/
def budgetTrace (pairs : List (Nat × Nat)) :
    List Nat → State → Option (Option State) × List Call
  | [], _ => (some none, [])
  | i :: is, s =>
    let r := traceRec pairs 0 (i : Int) s
    match r.1 with
    | none => (none, r.2)
    | some (true, s1) => (some (some s1), r.2)
    | some (false, s1) =>
      let r2 := budgetTrace pairs is s1
      (r2.1, r.2 ++ r2.2)

/-- The search of `get_magic` over a table with the record of all calls of
`rec`. -/
def searchTrace (pairs : List (Nat × Nat)) : Option (Option State) × List Call :=
  budgetTrace pairs budgets initState

/-! ## Predicates used in the statements and proofs -/

/-- The table in state `s` answers every pair of `pairs` under the
candidate `s.mul`: the index is a valid one and the slot holds the pair's
attack set. -/
def Consistent (pairs : List (Nat × Nat)) (s : State) : Prop :=
  ∀ p ∈ pairs, 0 ≤ hashIndex p.1 s.mul ∧ s.table (hashIndex p.1 s.mul) = p.2

/-- The bits of `mul` below position `n` are all zero. -/
def LowZero (n mul : Nat) : Prop := ∀ i, i < n → mul.testBit i = false

/-- Every pair of `l` has a shifted occupancy `v` with `v * 2^n ≡ 0 (mod 2^32)`. -/
def ZeroAt (l : List (Nat × Nat)) (n : Nat) : Prop :=
  ∀ p ∈ l, (p.1 >>> 10) * 2 ^ n % 2 ^ 32 = 0

/-- No slot carries a generation newer than `cnt`. -/
def StampOK (s : State) : Prop := ∀ g, s.vis g ≤ s.cnt

/-- The table `pairs` starts with pairs of attack set `A` (at least one) and
then has a pair with a different attack set `B`; `pfx` is the part of the
table up to and including that pair. -/
def Clash (pairs pfx : List (Nat × Nat)) (A B : Nat) (pre : List (Nat × Nat)) (mb : Nat)
    (rest : List (Nat × Nat)) : Prop :=
  pairs = pre ++ (mb, B) :: rest ∧ pfx = pre ++ [(mb, B)] ∧ pre ≠ [] ∧
    (∀ p ∈ pre, p.2 = A) ∧ B ≠ A

/-- The verification of lines 147-161 run for the candidate `m` on a freshly
cleared table with a fresh generation: does it return 1. -/
def verifies (pairs : List (Nat × Nat)) (m : Nat) : Bool :=
  match verifyLoop pairs { initState with mul := m, cnt := 1 } with
  | some (true, _) => true
  | _ => false

/-- The enumeration index whose bit `j` says whether the `j`-th square of
the list is set in the mask `m`. -/
def pack (m : Nat) : List (Nat × Nat) → Nat
  | [] => 0
  | sq :: rest => (if m.testBit (get_idx sq) then 1 else 0) + 2 * pack m rest

/-- Reference verification, following the words "a verification run on a
freshly cleared table": every slot is empty
(`none`) when the trial starts; a pair whose slot is empty is stored in it,
a pair whose slot is taken must carry the attack set stored there. -/
def verifyCleared (mul : Nat) : List (Nat × Nat) → (Int → Option Nat) → Bool
  | [], _ => true
  | v :: rest, t =>
    match t (hashIndex v.1 mul) with
    | none => verifyCleared mul rest (Function.update t (hashIndex v.1 mul) (some v.2))
    | some a => if a = v.2 then verifyCleared mul rest t else false

/-- Is the call a leaf that submits its candidate to verification (`n = 64`
with budget left, lines 147-161). -/
def Call.isTrial (c : Call) : Bool := decide (c.n = 64) && decide (c.k ≠ 0)

/-- Number of trials among the calls. -/
def numTrials (l : List Call) : Nat := (l.filter Call.isTrial).length

/-- The budgets of the top-level calls among the recorded calls. -/
def topBudgets (l : List Call) : List Int :=
  (l.filter (fun c => decide (c.depth = 0))).map Call.k

/-- The stamp invariant: every slot of `vis` holds `-1` or a generation
between 1 and `cnt`. -/
def StampRange (s : State) : Prop :=
  ∀ g, s.vis g = -1 ∨ (1 ≤ s.vis g ∧ s.vis g ≤ s.cnt)

/-- Every recorded call was entered with `cnt` equal to `c0` plus the number
of trials recorded before it. -/
def Counted (c0 : Int) : List Call → Prop
  | [] => True
  | c :: rest => c.st.cnt = c0 ∧ Counted (c0 + if c.isTrial then 1 else 0) rest

/-- Number of trials made by `rec(n, k)` with `d = 64 - n` positions left
when every trial is rejected: one at a leaf reached with budget left, and
below a position the trials of the clear-branch and, when budget is left,
those of the set-branch. -/
def trials : Nat → Nat → Nat
  | 0, k => if k = 0 then 0 else 1
  | d + 1, k => trials d k + (if k = 0 then 0 else trials d (k - 1))

theorem toInt_lt (v : Nat) : toInt v < 2 ^ 31 := by
  unfold toInt
  split_ifs with h
  · exact_mod_cast h
  · have : v % 2 ^ 32 < 2 ^ 32 := Nat.mod_lt _ (by norm_num)
    omega

theorem hashIndex_lt (m mul : Nat) : hashIndex m mul < (TABLE_SIZE : Int) := by
  unfold hashIndex
  simp only []
  split_ifs with h
  · have h2 : (toInt (get_hash m mul shift)).toNat &&& (TABLE_SIZE - 1)
        = (toInt (get_hash m mul shift)).toNat % 2 ^ 16 :=
      Nat.and_pow_two_sub_one_eq_mod _ 16
    rw [h2]
    have : (toInt (get_hash m mul shift)).toNat % 2 ^ 16 < 2 ^ 16 := Nat.mod_lt _ (by norm_num)
    have e : TABLE_SIZE = 2 ^ 16 := by decide
    rw [e]
    exact_mod_cast this
  · omega

theorem hashIndex_of_nonneg (m mul : Nat) (h : 0 ≤ hashIndex m mul) :
    hashIndex m mul = (((m >>> 10) * mul % 2 ^ 64 % 65536 : Nat) : Int) := by
  unfold hashIndex toInt get_hash shift at *
  have e : TABLE_SIZE = 65536 := by decide
  simp only [e] at *
  have h2 : ∀ a : Nat, a &&& (65536 - 1) = a % 65536 := fun a =>
    Nat.and_pow_two_sub_one_eq_mod a 16
  generalize (m >>> 10) * mul % 2 ^ 64 = v at *
  split_ifs at h ⊢ with h1 h3 h4
  · rw [h2]; omega
  · omega
  · omega
  · omega

/-! ## The stamping step and the verification loop -/

@[simp] theorem stamp_mul (s : State) (h : Int) (a : Nat) : (stamp s h a).mul = s.mul := by
  unfold stamp; split_ifs <;> rfl

@[simp] theorem stamp_cnt (s : State) (h : Int) (a : Nat) : (stamp s h a).cnt = s.cnt := by
  unfold stamp; split_ifs <;> rfl

theorem stamp_vis_self (s : State) (h : Int) (a : Nat) : (stamp s h a).vis h = s.cnt := by
  unfold stamp
  split_ifs with c
  · simp
  · simpa using c

theorem stamp_keeps (s : State) (h : Int) (a : Nat) (g : Int) (hg : s.vis g = s.cnt) :
    (stamp s h a).vis g = s.cnt ∧ (stamp s h a).table g = s.table g := by
  unfold stamp
  split_ifs with c
  · have hne : g ≠ h := by rintro rfl; exact c hg
    simp [Function.update_noteq hne, hg]
  · exact ⟨hg, rfl⟩

theorem stamp_vis_le (s : State) (h : Int) (a : Nat) (hv : ∀ g, s.vis g ≤ s.cnt) :
    ∀ g, (stamp s h a).vis g ≤ s.cnt := by
  intro g
  unfold stamp
  split_ifs with c
  · by_cases e : g = h
    · subst e; simp
    · simp [Function.update_noteq e, hv g]
  · exact hv g

/-- A successful run of the loop leaves `mul` and `cnt` alone, keeps every
slot that already carried the current generation, and ends with every
pair's attack set stored in the slot of its index. -/
theorem verifyLoop_sound (l : List (Nat × Nat)) :
    ∀ s s', verifyLoop l s = some (true, s') →
      s'.mul = s.mul ∧ s'.cnt = s.cnt ∧
      (∀ g, s.vis g = s.cnt → s'.vis g = s.cnt ∧ s'.table g = s.table g) ∧
      (∀ p ∈ l, 0 ≤ hashIndex p.1 s.mul ∧ s'.table (hashIndex p.1 s.mul) = p.2) := by
  induction l with
  | nil =>
    intro s s' h
    simp only [verifyLoop, Option.some.injEq, Prod.mk.injEq, true_and] at h
    subst h
    simp
  | cons v rest ih =>
    intro s s' h
    simp only [verifyLoop] at h
    split_ifs at h with h1 h2
    · simp at h
    obtain ⟨e1, e2, e3, e4⟩ := ih _ _ h
    simp only [stamp_mul, stamp_cnt] at e1 e2 e3 e4
    have hnn : 0 ≤ hashIndex v.1 s.mul := by omega
    refine ⟨e1, e2, ?_, ?_⟩
    · intro g hg
      obtain ⟨k1, k2⟩ := stamp_keeps s (hashIndex v.1 s.mul) v.2 g hg
      obtain ⟨k3, k4⟩ := e3 g k1
      exact ⟨k3, k4.trans k2⟩
    · intro p hp
      rcases List.mem_cons.mp hp with rfl | hp
      · refine ⟨hnn, ?_⟩
        have := (e3 _ (stamp_vis_self s (hashIndex p.1 s.mul) p.2)).2
        rw [this]
        exact not_not.mp h2
      · exact e4 p hp

theorem leaf_true (pairs : List (Nat × Nat)) (k : Nat) (s s' : State)
    (h : leaf pairs k s = some (true, s')) :
    0 < k ∧ s'.mul = s.mul ∧ s'.cnt = s.cnt + 1 ∧ Consistent pairs s' := by
  unfold leaf at h
  split_ifs at h with h1 h2
  · simp at h
  · obtain ⟨e1, e2, _, e4⟩ := verifyLoop_sound pairs _ _ h
    refine ⟨Nat.pos_of_ne_zero h1, e1, e2, ?_⟩
    intro p hp
    simp only at e1
    rw [e1]
    exact e4 p hp

theorem recAux_true (pairs : List (Nat × Nat)) (d : Nat) :
    ∀ n k s s', recAux pairs d n k s = some (true, s') → Consistent pairs s' := by
  induction d with
  | zero =>
    intro n k s s' h
    exact (leaf_true pairs k s s' h).2.2.2
  | succ d ih =>
    intro n k s s' h
    simp only [recAux] at h
    split at h
    · simp at h
    · next s1 e =>
      simp only [Option.some.injEq, Prod.mk.injEq, true_and] at h
      subst h
      exact ih _ _ _ _ e
    · next s1 e =>
      split_ifs at h with hk
      · exact ih _ _ _ _ h
      · simp at h

theorem rec_true (pairs : List (Nat × Nat)) (n k : Nat) (s s' : State)
    (h : rec pairs n k s = some (true, s')) : Consistent pairs s' := by
  unfold rec at h
  split_ifs at h
  exact recAux_true pairs _ _ _ _ _ h

theorem budgetLoop_nil (pairs : List (Nat × Nat)) (s : State) :
    budgetLoop pairs [] s = some none := rfl

theorem budgetLoop_cons (pairs : List (Nat × Nat)) (i : Nat) (is : List Nat) (s : State) :
    budgetLoop pairs (i :: is) s =
      match rec pairs 0 i s with
      | none => none
      | some (true, s1) => some (some s1)
      | some (false, s1) => budgetLoop pairs is s1 := rfl

theorem budgetLoop_some (pairs : List (Nat × Nat)) (is : List Nat) :
    ∀ s s', budgetLoop pairs is s = some (some s') → Consistent pairs s' := by
  induction is with
  | nil => intro s s' h; rw [budgetLoop_nil] at h; simp at h
  | cons i is ih =>
    intro s s' h
    rw [budgetLoop_cons] at h
    rcases e : rec pairs 0 i s with _ | ⟨b, s1⟩
    · rw [e] at h; simp at h
    · rw [e] at h
      cases b
      · exact ih _ _ h
      · simp only [Option.some.injEq] at h
        subst h
        exact rec_true pairs _ _ _ _ e

theorem accepted_some (pairs : List (Nat × Nat)) (mul : Nat) (h : accepted pairs = some mul) :
    ∃ s, search pairs = some (some s) ∧ s.mul = mul := by
  unfold accepted at h
  split at h
  · next s e => exact ⟨s, e, by simpa using h⟩
  · simp at h

/-- C1. Hash well-formedness: when the search over a table of pairs accepts
the multiplier `mul`, any two pairs of the table whose compressed indices
`((m >> 10) * mul mod 2^64) mod 65536` agree have the same attack set. -/
theorem hash_well_formed (pairs : List (Nat × Nat)) (mul : Nat)
    (h : accepted pairs = some mul) :
    ∀ p1 ∈ pairs, ∀ p2 ∈ pairs,
      (p1.1 >>> 10) * mul % 2 ^ 64 % 65536 = (p2.1 >>> 10) * mul % 2 ^ 64 % 65536 →
      p1.2 = p2.2 := by
  obtain ⟨s, hs, rfl⟩ := accepted_some pairs mul h
  have hc : Consistent pairs s := budgetLoop_some pairs _ _ _ hs
  intro p1 h1 p2 h2 e
  obtain ⟨n1, t1⟩ := hc p1 h1
  obtain ⟨n2, t2⟩ := hc p2 h2
  rw [hashIndex_of_nonneg _ _ n1] at t1
  rw [hashIndex_of_nonneg _ _ n2] at t2
  rw [← t1, ← t2, e]

set_option maxRecDepth 100000 in
theorem hash_well_formed_witness :
    accepted [(0, 7), (1024, 7)] = some 0 ∧
    (0 >>> 10) * 0 % 2 ^ 64 % 65536 = (1024 >>> 10) * 0 % 2 ^ 64 % 65536 ∧
    ((0, 7) : Nat × Nat).2 = ((1024, 7) : Nat × Nat).2 :=
  ⟨by decide, by decide,
   hash_well_formed [(0, 7), (1024, 7)] 0 (by decide) (0, 7) (by decide) (1024, 7)
     (by decide) (by decide)⟩

/-! ## Bits of the candidate -/

theorem clearBit_testBit (mul n i : Nat) (hn : n < 64) :
    (clearBit mul n).testBit i = (mul.testBit i && (decide (i < 64) && decide (i ≠ n))) := by
  unfold clearBit
  rw [Nat.testBit_and, Nat.testBit_xor, Nat.testBit_two_pow_sub_one, Nat.one_shiftLeft,
    Nat.testBit_two_pow]
  congr 1
  by_cases h1 : i < 64 <;> by_cases h2 : n = i
  · subst h2; simp [h1]
  · have : i ≠ n := fun e => h2 e.symm
    simp [h1, h2, this]
  · omega
  · have : i ≠ n := fun e => h2 e.symm
    simp [h1, h2, this]

theorem setBit_testBit (mul n i : Nat) :
    (setBit mul n).testBit i = (mul.testBit i || decide (n = i)) := by
  unfold setBit
  rw [Nat.testBit_or, Nat.one_shiftLeft, Nat.testBit_two_pow]

theorem clearBit_lt (mul n : Nat) (hn : n < 64) : clearBit mul n < 2 ^ 64 := by
  unfold clearBit
  apply Nat.and_lt_two_pow
  apply Nat.xor_lt_two_pow
  · norm_num
  · rw [Nat.one_shiftLeft]
    exact Nat.pow_lt_pow_right (by norm_num) hn

theorem setBit_lt (mul n : Nat) (hn : n < 64) (h : mul < 2 ^ 64) : setBit mul n < 2 ^ 64 := by
  unfold setBit
  apply Nat.or_lt_two_pow h
  rw [Nat.one_shiftLeft]
  exact Nat.pow_lt_pow_right (by norm_num) hn

theorem LowZero.dvd {n mul : Nat} (h : LowZero n mul) : 2 ^ n ∣ mul := by
  apply Nat.dvd_of_mod_eq_zero
  apply Nat.eq_of_testBit_eq
  intro i
  rw [Nat.testBit_mod_two_pow]
  by_cases hi : i < n
  · simp [h i hi]
  · simp [hi]

theorem LowZero.odd_form {n mul : Nat} (h : LowZero n mul) (hb : mul.testBit n = true) :
    ∃ q, mul = 2 ^ n * (2 * q + 1) := by
  obtain ⟨c, rfl⟩ := h.dvd
  rw [Nat.testBit_mul_pow_two] at hb
  simp only [ge_iff_le, le_refl, decide_True, Nat.sub_self, Bool.true_and,
    Nat.testBit_zero, decide_eq_true_eq] at hb
  exact ⟨c / 2, by congr 1; omega⟩

theorem LowZero.clear {n0 mul n : Nat} (h : LowZero n0 mul) (hn : n < 64) :
    LowZero n0 (clearBit mul n) := by
  intro i hi
  rw [clearBit_testBit _ _ _ hn, h i hi]
  rfl

theorem LowZero.clear_succ {mul n : Nat} (h : LowZero n mul) (hn : n < 64) :
    LowZero (n + 1) (clearBit mul n) := by
  intro i hi
  rw [clearBit_testBit _ _ _ hn]
  by_cases e : i = n
  · simp [e]
  · rw [h i (by omega)]; rfl

theorem LowZero.set {n0 mul n : Nat} (h : LowZero n0 mul) (hn : n0 ≤ n) :
    LowZero n0 (setBit mul n) := by
  intro i hi
  rw [setBit_testBit, h i hi]
  have : n ≠ i := by omega
  simp [this]

theorem LowZero.mono {n m mul : Nat} (h : LowZero n mul) (hm : m ≤ n) : LowZero m mul :=
  fun i hi => h i (by omega)

theorem LowZero.eq_zero {mul : Nat} (h : LowZero 64 mul) (hlt : mul < 2 ^ 64) : mul = 0 := by
  obtain ⟨c, rfl⟩ := h.dvd
  rcases Nat.eq_zero_or_pos c with rfl | hc
  · rfl
  · exfalso
    have : 2 ^ 64 * 1 ≤ 2 ^ 64 * c := Nat.mul_le_mul_left _ hc
    omega

/-! ## The index under a candidate with known low bits -/

theorem hashIndex_zero (m mul : Nat) (h : (m >>> 10) * mul % 2 ^ 32 = 0) :
    hashIndex m mul = 0 := by
  have e : (m >>> 10) * mul % 2 ^ 64 % 2 ^ 32 = (m >>> 10) * mul % 2 ^ 32 :=
    Nat.mod_mod_of_dvd _ (by norm_num)
  unfold hashIndex toInt get_hash shift
  simp only [e, h]
  decide

theorem hashIndex_neg (m mul : Nat) (h : (m >>> 10) * mul % 2 ^ 32 = 2 ^ 31) :
    hashIndex m mul < 0 := by
  have e : (m >>> 10) * mul % 2 ^ 64 % 2 ^ 32 = (m >>> 10) * mul % 2 ^ 32 :=
    Nat.mod_mod_of_dvd _ (by norm_num)
  unfold hashIndex toInt get_hash shift
  simp only [e, h]
  decide

theorem ZeroAt.succ {l : List (Nat × Nat)} {n : Nat} (h : ZeroAt l n) : ZeroAt l (n + 1) := by
  intro p hp
  have := h p hp
  rw [pow_succ, ← Nat.mul_assoc, Nat.mul_mod, this]
  simp

theorem ZeroAt.of_le {l : List (Nat × Nat)} {n m : Nat} (h : ZeroAt l n) (hm : n ≤ m) :
    ZeroAt l m := by
  induction m with
  | zero => have : n = 0 := by omega
            subst this; exact h
  | succ m ih =>
    rcases Nat.eq_or_lt_of_le hm with e | hlt
    · subst e; exact h
    · exact (ih (by omega)).succ

theorem zeroAt_32 (l : List (Nat × Nat)) : ZeroAt l 32 := by
  intro p _
  exact Nat.mul_mod_left _ _

theorem zeroAt_threshold (l : List (Nat × Nat)) (h : ¬ ZeroAt l 0) :
    ∃ n0, n0 < 32 ∧ ¬ ZeroAt l n0 ∧ ZeroAt l (n0 + 1) := by
  by_contra hc
  push_neg at hc
  have key : ∀ n, n ≤ 32 → ¬ ZeroAt l n := by
    intro n
    induction n with
    | zero => intro _; exact h
    | succ n ih =>
      intro hn hz
      exact hc n (by omega) (ih (by omega)) hz
  exact key 32 le_rfl (zeroAt_32 l)

theorem low32_zero {l : List (Nat × Nat)} {n mul : Nat} (hz : ZeroAt l n) (hl : LowZero n mul) :
    ∀ p ∈ l, (p.1 >>> 10) * mul % 2 ^ 32 = 0 := by
  intro p hp
  obtain ⟨c, rfl⟩ := hl.dvd
  rw [← Nat.mul_assoc, Nat.mul_mod, hz p hp]
  simp

theorem low32_at_threshold {l : List (Nat × Nat)} {n0 mul : Nat} (hz : ZeroAt l (n0 + 1))
    (hl : LowZero n0 mul) (hb : mul.testBit n0 = true) :
    ∀ p ∈ l, (p.1 >>> 10) * mul % 2 ^ 32 = (p.1 >>> 10) * 2 ^ n0 % 2 ^ 32 ∧
      ((p.1 >>> 10) * 2 ^ n0 % 2 ^ 32 = 0 ∨ (p.1 >>> 10) * 2 ^ n0 % 2 ^ 32 = 2 ^ 31) := by
  intro p hp
  obtain ⟨q, rfl⟩ := hl.odd_form hb
  have h1 := hz p hp
  generalize p.1 >>> 10 = v at *
  have e1 : v * (2 ^ n0 * (2 * q + 1)) = v * 2 ^ (n0 + 1) * q + v * 2 ^ n0 := by ring
  have e2 : v * 2 ^ (n0 + 1) = 2 * (v * 2 ^ n0) := by ring
  constructor
  · rw [e1, Nat.add_mod, Nat.mul_mod, h1]
    simp
  · rw [e2] at h1
    omega

/-! ## Invariants of the verification loop and of the recursion -/

theorem verifyLoop_inv (l : List (Nat × Nat)) :
    ∀ s b s', verifyLoop l s = some (b, s') →
      s'.mul = s.mul ∧ s'.cnt = s.cnt ∧ (StampOK s → StampOK s') := by
  induction l with
  | nil =>
    intro s b s' h
    simp only [verifyLoop, Option.some.injEq, Prod.mk.injEq] at h
    obtain ⟨_, rfl⟩ := h
    exact ⟨rfl, rfl, id⟩
  | cons v rest ih =>
    intro s b s' h
    simp only [verifyLoop] at h
    have hst : StampOK s → StampOK (stamp s (hashIndex v.1 s.mul) v.2) := by
      intro hs g
      rw [stamp_cnt]
      exact stamp_vis_le s _ _ hs g
    split_ifs at h with h1 h2
    · simp only [Option.some.injEq, Prod.mk.injEq] at h
      obtain ⟨_, rfl⟩ := h
      exact ⟨stamp_mul _ _ _, stamp_cnt _ _ _, hst⟩
    · obtain ⟨e1, e2, e3⟩ := ih _ _ _ h
      rw [stamp_mul] at e1
      rw [stamp_cnt] at e2
      exact ⟨e1, e2, fun hs => e3 (hst hs)⟩

theorem leaf_inv (pairs : List (Nat × Nat)) (k : Nat) (s : State) (b : Bool) (s' : State)
    (h : leaf pairs k s = some (b, s')) :
    s'.mul = s.mul ∧ (StampOK s → StampOK s') := by
  unfold leaf at h
  split_ifs at h with h1 h2
  · simp only [Option.some.injEq, Prod.mk.injEq] at h
    obtain ⟨_, rfl⟩ := h
    exact ⟨rfl, id⟩
  · obtain ⟨e1, _, e3⟩ := verifyLoop_inv pairs _ _ _ h
    refine ⟨e1, fun hs => e3 ?_⟩
    intro g
    have := hs g
    show s.vis g ≤ s.cnt + 1
    omega

theorem recAux_succ (pairs : List (Nat × Nat)) (d n k : Nat) (s : State) :
    recAux pairs (d + 1) n k s =
      match recAux pairs d (n + 1) k { s with mul := clearBit s.mul n } with
      | none => none
      | some (true, s1) => some (true, s1)
      | some (false, s1) =>
        if k > 0 then
          recAux pairs d (n + 1) (k - 1) { s1 with mul := setBit s1.mul n }
        else some (false, s1) := rfl

theorem recAux_zero (pairs : List (Nat × Nat)) (n k : Nat) (s : State) :
    recAux pairs 0 n k s = leaf pairs k s := rfl

/-- A call `rec(n, k)` keeps the stamp invariant, leaves the bits of `mul`
below `n` alone and keeps `mul` a 64-bit value. -/
theorem recAux_inv (pairs : List (Nat × Nat)) (d : Nat) :
    ∀ n k s b s', n + d = 64 → recAux pairs d n k s = some (b, s') →
      (StampOK s → StampOK s') ∧ (∀ i, i < n → s'.mul.testBit i = s.mul.testBit i) ∧
      (s.mul < 2 ^ 64 → s'.mul < 2 ^ 64) := by
  induction d with
  | zero =>
    intro n k s b s' _ h
    rw [recAux_zero] at h
    obtain ⟨e1, e2⟩ := leaf_inv pairs k s b s' h
    exact ⟨e2, fun i _ => by rw [e1], fun hlt => by rw [e1]; exact hlt⟩
  | succ d ih =>
    intro n k s b s' hn h
    rw [recAux_succ] at h
    have hn64 : n < 64 := by omega
    rcases e : recAux pairs d (n + 1) k { s with mul := clearBit s.mul n } with _ | ⟨b1, s1⟩
    · rw [e] at h; simp at h
    · rw [e] at h
      obtain ⟨i1, i2, i3⟩ := ih _ _ _ _ _ (by omega) e
      have hbits : ∀ i, i < n → s1.mul.testBit i = s.mul.testBit i := by
        intro i hi
        rw [i2 i (by omega)]
        show (clearBit s.mul n).testBit i = _
        rw [clearBit_testBit _ _ _ hn64]
        have h1 : i < 64 := by omega
        have h2 : i ≠ n := by omega
        simp [h1, h2]
      have hlt1 : s1.mul < 2 ^ 64 := i3 (clearBit_lt _ _ hn64)
      cases b1
      · simp only at h
        split_ifs at h with hk
        · obtain ⟨j1, j2, j3⟩ := ih _ _ _ _ _ (by omega) h
          refine ⟨fun hs => j1 (i1 hs), ?_, fun _ => j3 (setBit_lt _ _ hn64 hlt1)⟩
          intro i hi
          rw [j2 i (by omega)]
          show (setBit s1.mul n).testBit i = _
          rw [setBit_testBit, hbits i hi]
          have : n ≠ i := by omega
          simp [this]
        · simp only [Option.some.injEq, Prod.mk.injEq] at h
          obtain ⟨_, rfl⟩ := h
          exact ⟨i1, hbits, fun _ => hlt1⟩
      · simp only [Option.some.injEq, Prod.mk.injEq] at h
        obtain ⟨_, rfl⟩ := h
        exact ⟨i1, hbits, fun _ => hlt1⟩

/-- With no budget left nothing below is ever verified. -/
theorem recAux_zero_budget (pairs : List (Nat × Nat)) (d : Nat) :
    ∀ n s s', recAux pairs d n 0 s ≠ some (true, s') := by
  induction d with
  | zero =>
    intro n s s' h
    rw [recAux_zero] at h
    simp [leaf] at h
  | succ d ih =>
    intro n s s' h
    rw [recAux_succ] at h
    rcases e : recAux pairs d (n + 1) 0 { s with mul := clearBit s.mul n } with _ | ⟨b1, s1⟩
    · rw [e] at h; simp at h
    · cases b1
      · rw [e] at h; simp at h
      · exact ih _ _ _ e

/-! ## Tables with two different attack sets -/

theorem verifyLoop_fault (A B mb : Nat) (rest : List (Nat × Nat)) (pre : List (Nat × Nat)) :
    ∀ s, (∀ p ∈ pre, p.2 = A ∧ (hashIndex p.1 s.mul = 0 ∨ hashIndex p.1 s.mul < 0)) →
      (hashIndex mb s.mul < 0 ∨ ∃ p ∈ pre, hashIndex p.1 s.mul < 0) →
      (s.vis 0 ≠ s.cnt ∨ s.table 0 = A) →
      verifyLoop (pre ++ (mb, B) :: rest) s = none := by
  induction pre with
  | nil =>
    intro s _ hneg _
    rcases hneg with h | ⟨p, hp, _⟩
    · simp only [List.nil_append, verifyLoop]
      rw [if_pos (Or.inl h)]
    · simp at hp
  | cons v pre ih =>
    intro s hall hneg hfresh
    simp only [List.cons_append, verifyLoop]
    obtain ⟨hA, h0 | hn⟩ := hall v (List.mem_cons_self _ _)
    · have hT : (0 : Int) < (TABLE_SIZE : Int) := by decide
      rw [if_neg (by rw [h0]; omega)]
      have hmul : (stamp s (hashIndex v.1 s.mul) v.2).mul = s.mul := stamp_mul _ _ _
      have htab : (stamp s (hashIndex v.1 s.mul) v.2).table (hashIndex v.1 s.mul) = v.2 := by
        rw [h0, hA]
        unfold stamp
        split_ifs with c
        · simp
        · rcases hfresh with f | f
          · exact absurd f c
          · exact f
      rw [if_neg (by rw [htab]; simp)]
      apply ih
      · intro p hp
        rw [hmul]
        exact hall p (List.mem_cons_of_mem _ hp)
      · rw [hmul]
        rcases hneg with h | ⟨p, hp, hlt⟩
        · exact Or.inl h
        · rcases List.mem_cons.mp hp with rfl | hp
          · omega
          · exact Or.inr ⟨p, hp, hlt⟩
      · right
        rw [h0] at htab ⊢
        rw [htab, hA]
    · rw [if_pos (Or.inl hn)]

theorem verifyLoop_uniform (A : Nat) (l : List (Nat × Nat)) :
    ∀ s, (∀ p ∈ l, hashIndex p.1 s.mul = 0 ∧ p.2 = A) →
      (s.vis 0 ≠ s.cnt ∨ s.table 0 = A) →
      ∃ s', verifyLoop l s = some (true, s') := by
  induction l with
  | nil => intro s _ _; exact ⟨s, rfl⟩
  | cons v l ih =>
    intro s hall hfresh
    obtain ⟨h0, hA⟩ := hall v (List.mem_cons_self _ _)
    simp only [verifyLoop]
    have hT : (0 : Int) < (TABLE_SIZE : Int) := by decide
    rw [if_neg (by rw [h0]; omega)]
    have hmul : (stamp s (hashIndex v.1 s.mul) v.2).mul = s.mul := stamp_mul _ _ _
    have htab : (stamp s (hashIndex v.1 s.mul) v.2).table (hashIndex v.1 s.mul) = v.2 := by
      rw [h0, hA]
      unfold stamp
      split_ifs with c
      · simp
      · rcases hfresh with f | f
        · exact absurd f c
        · exact f
    rw [if_neg (by rw [htab]; simp)]
    apply ih
    · intro p hp
      rw [hmul]
      exact hall p (List.mem_cons_of_mem _ hp)
    · right
      rw [h0] at htab ⊢
      rw [htab, hA]

theorem leaf_reject {pairs pfx pre rest : List (Nat × Nat)} {A B mb : Nat}
    (hc : Clash pairs pfx A B pre mb rest) (k : Nat) (s s' : State)
    (hz : ∀ p ∈ pfx, hashIndex p.1 s.mul = 0) :
    leaf pairs k s ≠ some (true, s') := by
  intro h
  obtain ⟨hp, hx, hne, hA, hB⟩ := hc
  obtain ⟨_, e1, _, hcons⟩ := leaf_true pairs k s s' h
  obtain ⟨v, pre', rfl⟩ := List.exists_cons_of_ne_nil hne
  have m1 : v ∈ pairs := by rw [hp]; simp
  have m2 : (mb, B) ∈ pairs := by rw [hp]; simp
  have z1 : hashIndex v.1 s'.mul = 0 := by rw [e1]; exact hz v (by rw [hx]; simp)
  have z2 : hashIndex mb s'.mul = 0 := by rw [e1]; exact hz (mb, B) (by rw [hx]; simp)
  have t1 := (hcons v m1).2
  have t2 := (hcons (mb, B) m2).2
  rw [z1] at t1
  simp only [z2] at t2
  apply hB
  rw [← t2, t1]
  exact hA v (List.mem_cons_self _ _)

theorem leaf_fault {pairs pfx pre rest : List (Nat × Nat)} {A B mb : Nat}
    (hc : Clash pairs pfx A B pre mb rest) (k : Nat) (s : State) (hk : k ≠ 0)
    (hs : StampOK s)
    (hz : ∀ p ∈ pfx, hashIndex p.1 s.mul = 0 ∨ hashIndex p.1 s.mul < 0)
    (hn : ∃ p ∈ pfx, hashIndex p.1 s.mul < 0) :
    leaf pairs k s = none := by
  obtain ⟨hp, hx, _, hA, _⟩ := hc
  unfold leaf
  rw [if_neg hk]
  split_ifs with hmax
  · rfl
  · rw [hp]
    apply verifyLoop_fault A B mb rest pre
    · intro p hp'
      exact ⟨hA p hp', hz p (by rw [hx]; simp [hp'])⟩
    · obtain ⟨p, hp', hlt⟩ := hn
      rw [hx] at hp'
      rcases List.mem_append.mp hp' with h1 | h1
      · exact Or.inr ⟨p, h1, hlt⟩
      · simp only [List.mem_singleton] at h1
        subst h1
        exact Or.inl hlt
    · left
      have := hs 0
      show s.vis 0 ≠ s.cnt + 1
      omega

/-! ## The search over a table with two different attack sets -/

theorem hashIndex_zero_of_zeroAt {l : List (Nat × Nat)} {n mul : Nat} (hz : ZeroAt l n)
    (hl : LowZero n mul) : ∀ p ∈ l, hashIndex p.1 mul = 0 :=
  fun p hp => hashIndex_zero _ _ (low32_zero hz hl p hp)

/-- Candidates all of whose bits below `n0` are zero are never accepted when
the shifted occupancies of the clashing pairs vanish modulo `2^32` after a
multiplication by `2^n0`. -/
theorem recAux_reject {pairs pfx pre rest : List (Nat × Nat)} {A B mb : Nat}
    (hc : Clash pairs pfx A B pre mb rest) (n0 : Nat) (hz : ZeroAt pfx n0) (d : Nat) :
    ∀ n k s s', n0 ≤ n → n + d = 64 → LowZero n0 s.mul →
      recAux pairs d n k s ≠ some (true, s') := by
  induction d with
  | zero =>
    intro n k s s' _ _ hl
    rw [recAux_zero]
    exact leaf_reject hc k s s' (hashIndex_zero_of_zeroAt hz hl)
  | succ d ih =>
    intro n k s s' hn0 hn hl h
    have hn64 : n < 64 := by omega
    rw [recAux_succ] at h
    have hl1 : LowZero n0 (clearBit s.mul n) := hl.clear hn64
    rcases e : recAux pairs d (n + 1) k { s with mul := clearBit s.mul n } with _ | ⟨b1, s1⟩
    · rw [e] at h; simp at h
    · cases b1
      · rw [e] at h
        simp only at h
        split_ifs at h with hk
        · refine ih _ _ _ _ (by omega) (by omega) ?_ h
          have hb := (recAux_inv pairs d _ _ _ _ _ (by omega) e).2.1
          have hl2 : LowZero n0 s1.mul := by
            intro i hi
            rw [hb i (by omega)]
            exact hl1 i hi
          exact hl2.set hn0
        · simp at h
      · exact ih _ _ _ _ (by omega) (by omega) hl1 e

/-- With a budget of at most one the only candidate verified is zero, which
is never accepted for a table with two different attack sets. -/
theorem recAux_reject_small {pairs pfx pre rest : List (Nat × Nat)} {A B mb : Nat}
    (hc : Clash pairs pfx A B pre mb rest) (d : Nat) :
    ∀ n k s s', k ≤ 1 → n + d = 64 → LowZero n s.mul →
      recAux pairs d n k s ≠ some (true, s') := by
  induction d with
  | zero =>
    intro n k s s' _ hn hl
    rw [recAux_zero]
    have hz : ZeroAt pfx n := (zeroAt_32 pfx).of_le (by omega)
    exact leaf_reject hc k s s' (hashIndex_zero_of_zeroAt hz hl)
  | succ d ih =>
    intro n k s s' hk hn hl h
    have hn64 : n < 64 := by omega
    rw [recAux_succ] at h
    rcases e : recAux pairs d (n + 1) k { s with mul := clearBit s.mul n } with _ | ⟨b1, s1⟩
    · rw [e] at h; simp at h
    · cases b1
      · rw [e] at h
        simp only at h
        split_ifs at h with hk0
        · have : k - 1 = 0 := by omega
          rw [this] at h
          exact recAux_zero_budget pairs d _ _ _ h
        · simp at h
      · exact ih _ _ _ _ hk (by omega) (hl.clear_succ hn64) e

/-- Candidates whose lowest set bit is the threshold position `n0` index the
table with a negative value as soon as one of them is verified. -/
theorem recAux_fault {pairs pfx pre rest : List (Nat × Nat)} {A B mb : Nat}
    (hc : Clash pairs pfx A B pre mb rest) (n0 : Nat) (hnz : ¬ ZeroAt pfx n0)
    (hz : ZeroAt pfx (n0 + 1)) (d : Nat) :
    ∀ n k s, n0 < n → n + d = 64 → 1 ≤ k → LowZero n0 s.mul → s.mul.testBit n0 = true →
      StampOK s → recAux pairs d n k s = none := by
  induction d with
  | zero =>
    intro n k s _ _ hk hl hb hs
    rw [recAux_zero]
    have hlow := low32_at_threshold hz hl hb
    apply leaf_fault hc k s (by omega) hs
    · intro p hp
      obtain ⟨e1, e2 | e2⟩ := hlow p hp
      · exact Or.inl (hashIndex_zero _ _ (e1.trans e2))
      · exact Or.inr (hashIndex_neg _ _ (e1.trans e2))
    · unfold ZeroAt at hnz
      push_neg at hnz
      obtain ⟨p, hp, hne⟩ := hnz
      obtain ⟨e1, e2 | e2⟩ := hlow p hp
      · exact absurd e2 hne
      · exact ⟨p, hp, hashIndex_neg _ _ (e1.trans e2)⟩
  | succ d ih =>
    intro n k s hn0 hn hk hl hb hs
    have hn64 : n < 64 := by omega
    rw [recAux_succ]
    have h1 : recAux pairs d (n + 1) k { s with mul := clearBit s.mul n } = none := by
      apply ih (n + 1) k { s with mul := clearBit s.mul n } (by omega) (by omega) hk
        (hl.clear hn64) _ (fun g => hs g)
      show (clearBit s.mul n).testBit n0 = true
      rw [clearBit_testBit _ _ _ hn64, hb]
      have a1 : n0 < 64 := by omega
      have a2 : n0 ≠ n := by omega
      simp [a1, a2]
    rw [h1]

/-- Below the threshold position a budget of two or more runs into the
negative index. -/
theorem recAux_fault_below {pairs pfx pre rest : List (Nat × Nat)} {A B mb : Nat}
    (hc : Clash pairs pfx A B pre mb rest) (n0 : Nat) (h32 : n0 < 64)
    (hnz : ¬ ZeroAt pfx n0) (hz : ZeroAt pfx (n0 + 1)) (d : Nat) :
    ∀ n k s, n ≤ n0 → n + d = 64 → 2 ≤ k → LowZero n s.mul → StampOK s →
      recAux pairs d n k s = none := by
  induction d with
  | zero => intro n k s h1 h2; omega
  | succ d ih =>
    intro n k s hn0 hn hk hl hs
    have hn64 : n < 64 := by omega
    rw [recAux_succ]
    rcases Nat.eq_or_lt_of_le hn0 with heq | hlt
    · subst heq
      have hl1 : LowZero (n + 1) (clearBit s.mul n) := hl.clear_succ hn64
      rcases e : recAux pairs d (n + 1) k { s with mul := clearBit s.mul n } with _ | ⟨b1, s1⟩
      · rfl
      · cases b1
        · simp only
          rw [if_pos (by omega)]
          obtain ⟨i1, i2, _⟩ := recAux_inv pairs d _ _ _ _ _ (by omega) e
          have hl2 : LowZero (n + 1) s1.mul := by
            intro i hi
            rw [i2 i hi]
            exact hl1 i hi
          apply recAux_fault hc n hnz hz d _ _ _ (by omega) (by omega) (by omega)
          · exact (hl2.mono (by omega)).set le_rfl
          · show (setBit s1.mul n).testBit n = true
            rw [setBit_testBit]
            simp
          · exact i1 hs
        · exact absurd e (recAux_reject hc (n + 1) hz d _ _ _ _ le_rfl (by omega) hl1)
    · have h1 : recAux pairs d (n + 1) k { s with mul := clearBit s.mul n } = none :=
        ih (n + 1) k { s with mul := clearBit s.mul n } (by omega) (by omega) hk
          (hl.clear_succ hn64) (fun g => hs g)
      rw [h1]

theorem lowZero_zero (mul : Nat) : LowZero 0 mul := fun i hi => absurd hi (Nat.not_lt_zero i)

/-- A table with two different attack sets: `rec(0, k)` never returns 1. -/
theorem recAux_clash {pairs pfx pre rest : List (Nat × Nat)} {A B mb : Nat}
    (hc : Clash pairs pfx A B pre mb rest) (k : Nat) (s s' : State) (hs : StampOK s) :
    recAux pairs 64 0 k s ≠ some (true, s') := by
  by_cases hz : ZeroAt pfx 0
  · exact recAux_reject hc 0 hz 64 0 k s s' le_rfl rfl (lowZero_zero _)
  · obtain ⟨n0, h32, hnz, hz1⟩ := zeroAt_threshold pfx hz
    by_cases hk : 2 ≤ k
    · rw [recAux_fault_below hc n0 (by omega) hnz hz1 64 0 k s (by omega) rfl hk
        (lowZero_zero _) hs]
      simp
    · exact recAux_reject_small hc 64 0 k s s' (by omega) rfl (lowZero_zero _)

/-! ## The search over a table with a single attack set -/

theorem recAux_uniform (pairs : List (Nat × Nat)) (A : Nat) (hA : ∀ p ∈ pairs, p.2 = A)
    (d : Nat) :
    ∀ n k s, n + d = 64 → 1 ≤ k → LowZero n s.mul → s.mul < 2 ^ 64 → StampOK s →
      recAux pairs d n k s = none ∨
        ∃ s', recAux pairs d n k s = some (true, s') ∧ s'.mul = 0 := by
  induction d with
  | zero =>
    intro n k s hn hk hl hlt hs
    have hn' : n = 64 := by omega
    subst hn'
    have h0 : s.mul = 0 := hl.eq_zero hlt
    rw [recAux_zero]
    unfold leaf
    rw [if_neg (by omega)]
    split_ifs with hmax
    · exact Or.inl rfl
    · right
      obtain ⟨s', hs'⟩ := verifyLoop_uniform A pairs { s with cnt := s.cnt + 1 }
        (by
          intro p hp
          refine ⟨hashIndex_zero _ _ ?_, hA p hp⟩
          show (p.1 >>> 10) * s.mul % 2 ^ 32 = 0
          rw [h0]; simp)
        (by
          left
          have := hs 0
          show s.vis 0 ≠ s.cnt + 1
          omega)
      refine ⟨s', hs', ?_⟩
      rw [(verifyLoop_sound pairs _ _ hs').1]
      exact h0
  | succ d ih =>
    intro n k s hn hk hl hlt hs
    have hn64 : n < 64 := by omega
    rw [recAux_succ]
    rcases ih (n + 1) k { s with mul := clearBit s.mul n } (by omega) hk
        (hl.clear_succ hn64) (clearBit_lt _ _ hn64) (fun g => hs g) with h | ⟨s', h, hm⟩
    · rw [h]; exact Or.inl rfl
    · rw [h]; exact Or.inr ⟨s', rfl, hm⟩

theorem clash_or_uniform (A : Nat) (t : List (Nat × Nat)) :
    (∀ p ∈ t, p.2 = A) ∨
      ∃ pre mb B rest, t = pre ++ (mb, B) :: rest ∧ (∀ p ∈ pre, p.2 = A) ∧ B ≠ A := by
  induction t with
  | nil => left; simp
  | cons v t ih =>
    by_cases hv : v.2 = A
    · rcases ih with h | ⟨pre, mb, B, rest, e, h1, h2⟩
      · left
        intro p hp
        rcases List.mem_cons.mp hp with rfl | hp
        · exact hv
        · exact h p hp
      · right
        refine ⟨v :: pre, mb, B, rest, by rw [e]; rfl, ?_, h2⟩
        intro p hp
        rcases List.mem_cons.mp hp with rfl | hp
        · exact hv
        · exact h1 p hp
    · right
      exact ⟨[], v.1, v.2, t, rfl, by simp, hv⟩

/-- Whatever the table, the only candidate that `rec(0, k)` ever accepts is
zero. -/
theorem recAux_accepts_zero (pairs : List (Nat × Nat)) (k : Nat) (s s' : State)
    (hs : StampOK s) (hlt : s.mul < 2 ^ 64)
    (h : recAux pairs 64 0 k s = some (true, s')) : s'.mul = 0 := by
  have huni : ∀ A, (∀ p ∈ pairs, p.2 = A) → s'.mul = 0 := by
    intro A hA
    have hk : 1 ≤ k := by
      rcases Nat.eq_zero_or_pos k with rfl | hk
      · exact absurd h (recAux_zero_budget pairs 64 0 s s')
      · exact hk
    rcases recAux_uniform pairs A hA 64 0 k s rfl hk (lowZero_zero _) hlt hs with e | ⟨s2, e, hm⟩
    · rw [e] at h; simp at h
    · rw [e] at h
      simp only [Option.some.injEq, Prod.mk.injEq, true_and] at h
      rw [← h]; exact hm
  rcases pairs with _ | ⟨v, t⟩
  · exact huni 0 (by simp)
  · rcases clash_or_uniform v.2 t with hu | ⟨pre, mb, B, rest, e, h1, h2⟩
    · apply huni v.2
      intro p hp
      rcases List.mem_cons.mp hp with rfl | hp
      · rfl
      · exact hu p hp
    · exfalso
      have hc : Clash (v :: t) ((v :: pre) ++ [(mb, B)]) v.2 B (v :: pre) mb rest := by
        refine ⟨by rw [e]; rfl, rfl, by simp, ?_, h2⟩
        intro p hp
        rcases List.mem_cons.mp hp with rfl | hp
        · rfl
        · exact h1 p hp
      exact recAux_clash hc k s s' hs h

theorem rec_zero_eq (pairs : List (Nat × Nat)) (k : Nat) (s : State) :
    rec pairs 0 k s = recAux pairs 64 0 k s := rfl

theorem initState_ok : StampOK initState ∧ initState.mul < 2 ^ 64 := by
  refine ⟨fun g => ?_, ?_⟩
  · show (-1 : Int) ≤ 0
    omega
  · show 0 < 2 ^ 64
    norm_num

theorem budgetLoop_accepts_zero (pairs : List (Nat × Nat)) (is : List Nat) :
    ∀ s s', StampOK s → s.mul < 2 ^ 64 → budgetLoop pairs is s = some (some s') →
      s'.mul = 0 := by
  induction is with
  | nil => intro s s' _ _ h; rw [budgetLoop_nil] at h; simp at h
  | cons i is ih =>
    intro s s' hs hlt h
    rw [budgetLoop_cons, rec_zero_eq] at h
    rcases e : recAux pairs 64 0 i s with _ | ⟨b, s1⟩
    · rw [e] at h; simp at h
    · rw [e] at h
      cases b
      · obtain ⟨i1, _, i3⟩ := recAux_inv pairs 64 0 i s _ _ rfl e
        exact ih _ _ (i1 hs) (i3 hlt) h
      · simp only [Option.some.injEq] at h
        subst h
        exact recAux_accepts_zero pairs i s s1 hs hlt e

/-- The search accepts no candidate other than zero. -/
theorem accepted_eq_zero (pairs : List (Nat × Nat)) (mul : Nat)
    (h : accepted pairs = some mul) : mul = 0 := by
  obtain ⟨s, hs, rfl⟩ := accepted_some pairs mul h
  exact budgetLoop_accepts_zero pairs _ _ _ initState_ok.1 initState_ok.2 hs

/-! ## The exact outcome for a table whose clash is visible in the low 32 bits -/

theorem verifyLoop_clash (A B mb : Nat) (rest : List (Nat × Nat)) (hB : B ≠ A)
    (pre : List (Nat × Nat)) :
    ∀ s, (∀ p ∈ pre, p.2 = A ∧ hashIndex p.1 s.mul = 0) → hashIndex mb s.mul = 0 →
      s.vis 0 = s.cnt → s.table 0 = A →
      verifyLoop (pre ++ (mb, B) :: rest) s = some (false, s) := by
  have hT : (0 : Int) < (TABLE_SIZE : Int) := by decide
  have hst : ∀ (s : State) (a : Nat), s.vis 0 = s.cnt → stamp s 0 a = s := by
    intro s a h
    unfold stamp
    rw [if_neg (by simp [h])]
  induction pre with
  | nil =>
    intro s _ h0 hv ht
    simp only [List.nil_append, verifyLoop, h0]
    rw [if_neg (by omega), hst s B hv, if_pos (by rw [ht]; exact fun e => hB e.symm)]
  | cons v pre ih =>
    intro s hall h0 hv ht
    obtain ⟨hA, hz⟩ := hall v (List.mem_cons_self _ _)
    simp only [List.cons_append, verifyLoop, hz]
    rw [if_neg (by omega), hst s v.2 hv, if_neg (by rw [ht, hA]; simp)]
    exact ih s (fun p hp => hall p (List.mem_cons_of_mem _ hp)) h0 hv ht

theorem leaf_clash {pairs pfx pre rest : List (Nat × Nat)} {A B mb : Nat}
    (hc : Clash pairs pfx A B pre mb rest) (k : Nat) (s : State) (hk : k ≠ 0)
    (hmax : s.cnt ≠ INT_MAX) (hs : StampOK s)
    (hz : ∀ p ∈ pfx, hashIndex p.1 s.mul = 0) :
    ∃ s', leaf pairs k s = some (false, s') := by
  obtain ⟨hp, hx, hne, hA, hB⟩ := hc
  obtain ⟨v, pre', rfl⟩ := List.exists_cons_of_ne_nil hne
  have hT : (0 : Int) < (TABLE_SIZE : Int) := by decide
  unfold leaf
  rw [if_neg hk, if_neg hmax, hp]
  have hv0 : hashIndex v.1 s.mul = 0 := hz v (by rw [hx]; simp)
  have hvA : v.2 = A := hA v (List.mem_cons_self _ _)
  have hfresh : s.vis 0 ≠ s.cnt + 1 := by
    have := hs 0
    omega
  simp only [List.cons_append, verifyLoop, hv0]
  rw [if_neg (by omega)]
  have e1 : (stamp { s with cnt := s.cnt + 1 } 0 v.2).table 0 = v.2 := by
    unfold stamp
    rw [if_pos hfresh]
    simp
  rw [if_neg (by rw [e1]; simp)]
  refine ⟨_, verifyLoop_clash A B mb rest hB pre' _ ?_ ?_ ?_ ?_⟩
  · intro p hp'
    rw [stamp_mul]
    exact ⟨hA p (List.mem_cons_of_mem _ hp'), hz p (by rw [hx]; simp [hp'])⟩
  · rw [stamp_mul]
    exact hz (mb, B) (by rw [hx]; simp)
  · rw [stamp_vis_self, stamp_cnt]
  · rw [e1, hvA]

theorem recAux_zero_budget_false (pairs : List (Nat × Nat)) (d : Nat) :
    ∀ n s, ∃ s', recAux pairs d n 0 s = some (false, s') := by
  induction d with
  | zero => intro n s; exact ⟨s, by rw [recAux_zero]; simp [leaf]⟩
  | succ d ih =>
    intro n s
    obtain ⟨s1, h1⟩ := ih (n + 1) { s with mul := clearBit s.mul n }
    exact ⟨s1, by rw [recAux_succ, h1]; simp⟩

/-- With a budget of one, on a table with two different attack sets, the
single verification (of the candidate zero) fails and `rec` returns 0. -/
theorem recAux_one_false {pairs pfx pre rest : List (Nat × Nat)} {A B mb : Nat}
    (hc : Clash pairs pfx A B pre mb rest) (d : Nat) :
    ∀ n s, n + d = 64 → LowZero n s.mul → StampOK s → s.cnt ≠ INT_MAX →
      ∃ s', recAux pairs d n 1 s = some (false, s') := by
  induction d with
  | zero =>
    intro n s hn hl hs hmax
    rw [recAux_zero]
    have hz : ZeroAt pfx n := (zeroAt_32 pfx).of_le (by omega)
    exact leaf_clash hc 1 s (by omega) hmax hs (hashIndex_zero_of_zeroAt hz hl)
  | succ d ih =>
    intro n s hn hl hs hmax
    have hn64 : n < 64 := by omega
    obtain ⟨s1, h1⟩ := ih (n + 1) { s with mul := clearBit s.mul n } (by omega)
      (hl.clear_succ hn64) (fun g => hs g) hmax
    obtain ⟨s2, h2⟩ := recAux_zero_budget_false pairs d (n + 1)
      { s1 with mul := setBit s1.mul n }
    exact ⟨s2, by rw [recAux_succ, h1]; simpa using h2⟩

/-- A table with two different attack sets whose clashing pairs do not all
vanish modulo `2^32`: the first budget fails and the second one indexes the
arrays with a negative value. -/
theorem search_fault {pairs pfx pre rest : List (Nat × Nat)} {A B mb : Nat}
    (hc : Clash pairs pfx A B pre mb rest) (hnz : ¬ ZeroAt pfx 0) : search pairs = none := by
  obtain ⟨n0, h32, hn0, hz1⟩ := zeroAt_threshold pfx hnz
  obtain ⟨s1, h1⟩ := recAux_one_false hc 64 0 initState rfl (lowZero_zero _) initState_ok.1
    (by decide)
  have hs1 : StampOK s1 := (recAux_inv pairs 64 0 1 initState _ _ rfl h1).1 initState_ok.1
  have h2 : recAux pairs 64 0 2 s1 = none :=
    recAux_fault_below hc n0 (by omega) hn0 hz1 64 0 2 s1 (by omega) rfl le_rfl
      (lowZero_zero _) hs1
  show budgetLoop pairs (1 :: 2 :: List.range' 3 8) initState = none
  rw [budgetLoop_cons, rec_zero_eq, h1]
  show budgetLoop pairs (2 :: List.range' 3 8) s1 = none
  rw [budgetLoop_cons, rec_zero_eq, h2]

/-- A table with two different attack sets is never answered by a
multiplier: the search does not return one. -/
theorem search_clash (pairs : List (Nat × Nat))
    (h : ∃ p1 ∈ pairs, ∃ p2 ∈ pairs, p1.2 ≠ p2.2) (s' : State) :
    search pairs ≠ some (some s') := by
  intro hs
  have hacc : accepted pairs = some s'.mul := by unfold accepted; rw [hs]
  have h0 := accepted_eq_zero pairs _ hacc
  have hc := budgetLoop_some pairs _ _ _ hs
  obtain ⟨p1, m1, p2, m2, hne⟩ := h
  apply hne
  have t1 := (hc p1 m1).2
  have t2 := (hc p2 m2).2
  have z : ∀ m, hashIndex m s'.mul = 0 := fun m => hashIndex_zero _ _ (by rw [h0]; simp)
  rw [z] at t1 t2
  rw [← t1, ← t2]

/-! ## The head of the table -/

theorem get_table_cons2 (x y n : Nat) (h : 1 <<< (rel x y).length = n + 2) :
    get_table x y = tableEntry x y (rel x y) 0 :: tableEntry x y (rel x y) 1 ::
      (List.range' 2 n).map (tableEntry x y (rel x y)) := by
  show (List.range (1 <<< (rel x y).length)).map (tableEntry x y (rel x y)) = _
  rw [h, List.range_eq_range', List.range'_succ, List.range'_succ, List.map_cons, List.map_cons]

theorem clash_of_cons2 (p0 p1 : Nat × Nat) (rest : List (Nat × Nat)) (h : p1.2 ≠ p0.2) :
    Clash (p0 :: p1 :: rest) [p0, p1] p0.2 p1.2 [p0] p1.1 rest :=
  ⟨rfl, rfl, by simp, by simp, h⟩

/-- A table whose first two pairs have different attack sets and whose
second occupancy does not vanish modulo `2^32` after the shift: the search
runs into undefined behaviour. -/
theorem search_fault_cons2 (p0 p1 : Nat × Nat) (rest : List (Nat × Nat)) (h : p1.2 ≠ p0.2)
    (hv : (p1.1 >>> 10) % 2 ^ 32 ≠ 0) : search (p0 :: p1 :: rest) = none := by
  apply search_fault (clash_of_cons2 p0 p1 rest h)
  intro hz
  apply hv
  have := hz p1 (by simp)
  simpa using this

/-! ## Properties of the search, the index and the relevant squares -/

set_option maxRecDepth 100000 in
/-- C2. Concrete scenario, target square (3,3): `get_table` returns 1024
pairs, but `get_magic(3,3)` does not return a pair: the search runs into an
array access with a negative index (undefined behaviour) and `main` prints
no result line. -/
theorem get_magic_3_3_undefined :
    (get_table 3 3).length = 1024 ∧ get_magic 3 3 = Result.undefined ∧ main 3 3 = none := by
  have hs : search (get_table 3 3) = none := by
    rw [get_table_cons2 3 3 1022 (by decide)]
    exact search_fault_cons2 _ _ _ (by decide) (by decide)
  refine ⟨by decide, ?_, ?_⟩
  · unfold get_magic; rw [hs]; rfl
  · unfold main get_magic; rw [hs]; rfl

set_option maxRecDepth 100000 in
/-- C3. The budget test of the leaf is the inverse of the claim: a leaf
with remaining budget zero is rejected without verification (the state is
unchanged), a leaf with remaining budget left is verified (for the table of
square (3,3) and budget one the generation counter goes to 1), and on the
table with the single pair `(0, 7)` the call `rec(0, 1)` accepts the
multiplier 0, which has no set bit. -/
theorem leaf_budget_test_inverted :
    (∀ pairs s, leaf pairs 0 s = some (false, s)) ∧
    (∀ pairs k s, k ≠ 0 → s.cnt ≠ INT_MAX →
      leaf pairs k s = verifyLoop pairs { s with cnt := s.cnt + 1 }) ∧
    (leaf (get_table 3 3) 1 initState).map (fun r => (r.1, r.2.cnt)) = some (false, 1) ∧
    (rec [(0, 7)] 0 1 initState).map (fun r => (r.1, r.2.mul, popcount r.2.mul))
      = some (true, 0, 0) := by
  refine ⟨fun pairs s => by simp [leaf], fun pairs k s hk hc => ?_, by decide, by decide⟩
  unfold leaf
  rw [if_neg hk, if_neg hc]

set_option maxRecDepth 100000 in
/-- C7. The index used for the occupancy `1024` (the square (1,2) alone,
the second pair of the table of square (1,1)) under the candidate `2^31` is
`-2147483648`: it is not the hash masked with `TABLE_SIZE - 1` (which is 0)
and it does not lie in `[0, 65535]`; and `get_magic(1,1)` does run into such
an access. -/
theorem hashIndex_negative :
    hashIndex 1024 (2 ^ 31) = -2147483648 ∧
    get_hash 1024 (2 ^ 31) shift &&& (TABLE_SIZE - 1) = 0 ∧
    ¬ (0 ≤ hashIndex 1024 (2 ^ 31) ∧ hashIndex 1024 (2 ^ 31) ≤ 65535) ∧
    (tableEntry 1 1 (rel 1 1) 1).1 = 1024 ∧
    get_magic 1 1 = Result.undefined := by
  refine ⟨by decide, by decide, by decide, by decide, ?_⟩
  have hs : search (get_table 1 1) = none := by
    rw [get_table_cons2 1 1 1022 (by decide)]
    exact search_fault_cons2 _ _ _ (by decide) (by decide)
  unfold get_magic
  rw [hs]
  rfl

/-- C9. Relevance Builder output: for a target square on the board the
Relevant-Square Set is the squares `(x, j)`, `j = 1..6`, `j ≠ y`, in
increasing `j`, followed by the squares `(i, y)`, `i = 1..6`, `i ≠ x`, in
increasing `i`; it has 10 elements when `x` and `y` lie in `[1, 6]` and
never more than 12. -/
theorem rel_spec (x y : Nat) (hx : x < 8) (hy : y < 8) :
    rel x y =
      ((List.range' 1 6).filter (fun j => j ≠ y)).map (fun j => (x, j)) ++
      ((List.range' 1 6).filter (fun i => i ≠ x)).map (fun i => (i, y)) ∧
    (1 ≤ x ∧ x ≤ 6 ∧ 1 ≤ y ∧ y ≤ 6 → (rel x y).length = 10) ∧
    (rel x y).length ≤ 12 := by
  interval_cases x <;> interval_cases y <;> decide

theorem rel_spec_witness :
    rel 3 5 =
      ((List.range' 1 6).filter (fun j => j ≠ 5)).map (fun j => (3, j)) ++
      ((List.range' 1 6).filter (fun i => i ≠ 3)).map (fun i => (i, 5)) ∧
    (1 ≤ 3 ∧ 3 ≤ 6 ∧ 1 ≤ 5 ∧ 5 ≤ 6 → (rel 3 5).length = 10) ∧
    (rel 3 5).length ≤ 12 :=
  rel_spec 3 5 (by decide) (by decide)

/-- C10, as stated, fails: for the target square (0,0) the relevant square
`(0, 1)` lies in row 0, a board-edge row. -/
theorem rel_edge_counterexample :
    ¬ (∀ sq ∈ rel 0 0,
        (sq.1 ≠ 0 ∧ sq.1 ≠ 7 ∧ sq.2 ≠ 0 ∧ sq.2 ≠ 7) ∧ sq ≠ (0, 0)) := by
  decide

/-- C10, amended. For a target square on the board no relevant square is
the target itself; a relevant square lies in the target's row with its
column in `[1, 6]` or in the target's column with its row in `[1, 6]` (the
two end squares of each line are left out); and when `x` and `y` both lie
in `[1, 6]` no relevant square is a board-edge square. -/
theorem rel_exclusions (x y : Nat) (hx : x < 8) (hy : y < 8) :
    ∀ sq ∈ rel x y, sq ≠ (x, y) ∧
      ((sq.1 = x ∧ 1 ≤ sq.2 ∧ sq.2 ≤ 6) ∨ (sq.2 = y ∧ 1 ≤ sq.1 ∧ sq.1 ≤ 6)) ∧
      (1 ≤ x ∧ x ≤ 6 ∧ 1 ≤ y ∧ y ≤ 6 →
        sq.1 ≠ 0 ∧ sq.1 ≠ 7 ∧ sq.2 ≠ 0 ∧ sq.2 ≠ 7) := by
  interval_cases x <;> interval_cases y <;> decide

theorem rel_exclusions_witness :
    ((2, 1) : Nat × Nat) ∈ rel 2 5 ∧ ((2, 1) : Nat × Nat) ≠ (2, 5) ∧
      ((((2, 1) : Nat × Nat).1 = 2 ∧ 1 ≤ ((2, 1) : Nat × Nat).2 ∧ ((2, 1) : Nat × Nat).2 ≤ 6) ∨
        (((2, 1) : Nat × Nat).2 = 5 ∧ 1 ≤ ((2, 1) : Nat × Nat).1 ∧
          ((2, 1) : Nat × Nat).1 ≤ 6)) ∧
      (1 ≤ 2 ∧ 2 ≤ 6 ∧ 1 ≤ 5 ∧ 5 ≤ 6 →
        ((2, 1) : Nat × Nat).1 ≠ 0 ∧ ((2, 1) : Nat × Nat).1 ≠ 7 ∧
          ((2, 1) : Nat × Nat).2 ≠ 0 ∧ ((2, 1) : Nat × Nat).2 ≠ 7) :=
  ⟨by decide, rel_exclusions 2 5 (by decide) (by decide) (2, 1) (by decide)⟩

/-! ## The occupancy loop -/

theorem and_shift_ne_zero (i j : Nat) : i &&& (1 <<< j) ≠ 0 ↔ i.testBit j = true := by
  rw [Nat.one_shiftLeft]
  constructor
  · intro h
    obtain ⟨t, ht⟩ := Nat.ne_zero_implies_bit_true h
    rw [Nat.testBit_and, Nat.testBit_two_pow] at ht
    simp only [Bool.and_eq_true, decide_eq_true_eq] at ht
    obtain ⟨h1, rfl⟩ := ht
    exact h1
  · intro h e
    have : (i &&& 2 ^ j).testBit j = true := by
      rw [Nat.testBit_and, Nat.testBit_two_pow, h]
      simp
    rw [e] at this
    simp at this

theorem testBit_or_shift (m b c : Nat) :
    (m ||| (1 <<< b)).testBit c = true ↔ m.testBit c = true ∨ b = c := by
  rw [Nat.testBit_or, Nat.one_shiftLeft, Nat.testBit_two_pow]
  simp

theorem occLoop_cons (i : Nat) (sq : Nat × Nat) (rest : List (Nat × Nat)) (j : Nat)
    (st : Nat × Board) :
    occLoop i (sq :: rest) j st =
      if i &&& (1 <<< j) ≠ 0 then
        occLoop i rest (j + 1) (st.1 ||| (1 <<< get_idx sq), st.2.mark sq)
      else occLoop i rest (j + 1) st := rfl

/-- The mask after the loop: the bits it had before and the bits of the
squares `rel[j0 + t]` selected by the bits of `i`. -/
theorem occLoop_mask (i : Nat) (l : List (Nat × Nat)) :
    ∀ j0 st b, (occLoop i l j0 st).1.testBit b = true ↔
      st.1.testBit b = true ∨
        ∃ t sq, l[t]? = some sq ∧ i.testBit (j0 + t) = true ∧ get_idx sq = b := by
  induction l with
  | nil =>
    intro j0 st b
    simp [occLoop]
  | cons v rest ih =>
    intro j0 st b
    rw [occLoop_cons]
    split_ifs with hc
    · rw [and_shift_ne_zero] at hc
      rw [ih, testBit_or_shift]
      constructor
      · rintro ((h | h) | ⟨t, sq, h1, h2, h3⟩)
        · exact Or.inl h
        · exact Or.inr ⟨0, v, by simp, by simpa using hc, h⟩
        · exact Or.inr ⟨t + 1, sq, by simpa using h1, by rw [← h2]; congr 1; omega, h3⟩
      · rintro (h | ⟨t, sq, h1, h2, h3⟩)
        · exact Or.inl (Or.inl h)
        · cases t with
          | zero =>
            simp only [List.getElem?_cons_zero, Option.some.injEq] at h1
            subst h1
            exact Or.inl (Or.inr h3)
          | succ t =>
            simp only [List.getElem?_cons_succ] at h1
            exact Or.inr ⟨t, sq, h1, by rw [← h2]; congr 1; omega, h3⟩
    · have hc' : i.testBit j0 = false := by
        rw [and_shift_ne_zero] at hc
        simpa using hc
      rw [ih]
      constructor
      · rintro (h | ⟨t, sq, h1, h2, h3⟩)
        · exact Or.inl h
        · exact Or.inr ⟨t + 1, sq, by simpa using h1, by rw [← h2]; congr 1; omega, h3⟩
      · rintro (h | ⟨t, sq, h1, h2, h3⟩)
        · exact Or.inl h
        · cases t with
          | zero =>
            simp only [Nat.add_zero] at h2
            rw [hc'] at h2
            simp at h2
          | succ t =>
            simp only [List.getElem?_cons_succ] at h1
            exact Or.inr ⟨t, sq, h1, by rw [← h2]; congr 1; omega, h3⟩

theorem mark_apply (b : Board) (sq : Nat × Nat) (r c : Nat) :
    b.mark sq r c = true ↔ b r c = true ∨ sq = (r, c) := by
  unfold Board.mark
  split_ifs with h
  · obtain ⟨rfl, rfl⟩ := h
    simp
  · constructor
    · exact Or.inl
    · rintro (h1 | h1)
      · exact h1
      · subst h1
        exact absurd ⟨rfl, rfl⟩ h

/-- The board after the loop: the cells set before and the cells of the
selected squares. -/
theorem occLoop_board (i : Nat) (l : List (Nat × Nat)) :
    ∀ j0 st r c, (occLoop i l j0 st).2 r c = true ↔
      st.2 r c = true ∨
        ∃ t sq, l[t]? = some sq ∧ i.testBit (j0 + t) = true ∧ sq = (r, c) := by
  induction l with
  | nil =>
    intro j0 st r c
    simp [occLoop]
  | cons v rest ih =>
    intro j0 st r c
    rw [occLoop_cons]
    split_ifs with hc
    · rw [and_shift_ne_zero] at hc
      rw [ih, mark_apply]
      constructor
      · rintro ((h | h) | ⟨t, sq, h1, h2, h3⟩)
        · exact Or.inl h
        · exact Or.inr ⟨0, v, by simp, by simpa using hc, h⟩
        · exact Or.inr ⟨t + 1, sq, by simpa using h1, by rw [← h2]; congr 1; omega, h3⟩
      · rintro (h | ⟨t, sq, h1, h2, h3⟩)
        · exact Or.inl (Or.inl h)
        · cases t with
          | zero =>
            simp only [List.getElem?_cons_zero, Option.some.injEq] at h1
            subst h1
            exact Or.inl (Or.inr h3)
          | succ t =>
            simp only [List.getElem?_cons_succ] at h1
            exact Or.inr ⟨t, sq, h1, by rw [← h2]; congr 1; omega, h3⟩
    · have hc' : i.testBit j0 = false := by
        rw [and_shift_ne_zero] at hc
        simpa using hc
      rw [ih]
      constructor
      · rintro (h | ⟨t, sq, h1, h2, h3⟩)
        · exact Or.inl h
        · exact Or.inr ⟨t + 1, sq, by simpa using h1, by rw [← h2]; congr 1; omega, h3⟩
      · rintro (h | ⟨t, sq, h1, h2, h3⟩)
        · exact Or.inl h
        · cases t with
          | zero =>
            simp only [Nat.add_zero] at h2
            rw [hc'] at h2
            simp at h2
          | succ t =>
            simp only [List.getElem?_cons_succ] at h1
            exact Or.inr ⟨t, sq, h1, by rw [← h2]; congr 1; omega, h3⟩

/-- The occupancy mask of the `i`-th pair. -/
theorem tableEntry_mask (x y : Nat) (rl : List (Nat × Nat)) (i b : Nat) :
    (tableEntry x y rl i).1.testBit b = true ↔
      ∃ t sq, rl[t]? = some sq ∧ i.testBit t = true ∧ get_idx sq = b := by
  show (occLoop i rl 0 (0, fun _ _ => false)).1.testBit b = true ↔ _
  rw [occLoop_mask]
  simp

/-! ## Enumeration of the occupancies -/

theorem rel_idx_nodup (x y : Nat) (hx : x < 8) (hy : y < 8) :
    ((rel x y).map get_idx).Nodup := by
  interval_cases x <;> interval_cases y <;> decide

theorem rel_on_board (x y : Nat) (hx : x < 8) (hy : y < 8) :
    ∀ sq ∈ rel x y, sq.1 < 8 ∧ sq.2 < 8 ∧ sq ≠ (x, y) := by
  interval_cases x <;> interval_cases y <;> decide

/-- Bit `get_idx rel[t]` of the `i`-th occupancy mask is bit `t` of `i`. -/
theorem tableEntry_mask_at (x y : Nat) (rl : List (Nat × Nat))
    (hn : (rl.map get_idx).Nodup) (i t : Nat) (sq : Nat × Nat) (ht : rl[t]? = some sq) :
    (tableEntry x y rl i).1.testBit (get_idx sq) = i.testBit t := by
  rw [Bool.eq_iff_iff, tableEntry_mask]
  constructor
  · rintro ⟨t', sq', h1, h2, h3⟩
    have hlt : t' < (rl.map get_idx).length := by
      rw [List.length_map]
      exact (List.getElem?_eq_some.mp h1).1
    have e : (rl.map get_idx)[t']? = (rl.map get_idx)[t]? := by
      rw [List.getElem?_map, List.getElem?_map, h1, ht]
      simp [h3]
    have := List.getElem?_inj hlt hn e
    subst this
    exact h2
  · intro h
    exact ⟨t, sq, ht, h, rfl⟩

theorem tableEntry_mask_inj (x y : Nat) (rl : List (Nat × Nat))
    (hn : (rl.map get_idx).Nodup) (i i' : Nat) (hi : i < 2 ^ rl.length)
    (hi' : i' < 2 ^ rl.length) (h : (tableEntry x y rl i).1 = (tableEntry x y rl i').1) :
    i = i' := by
  apply Nat.eq_of_testBit_eq
  intro t
  by_cases ht : t < rl.length
  · have hs : rl[t]? = some rl[t] := List.getElem?_eq_getElem ht
    rw [← tableEntry_mask_at x y rl hn i t _ hs, ← tableEntry_mask_at x y rl hn i' t _ hs, h]
  · have hp : 2 ^ rl.length ≤ 2 ^ t := Nat.pow_le_pow_right (by norm_num) (by omega)
    rw [Nat.testBit_lt_two_pow (lt_of_lt_of_le hi hp),
      Nat.testBit_lt_two_pow (lt_of_lt_of_le hi' hp)]

/-- C6. Enumeration completeness: for a target square on the board
`get_table` returns exactly `2^k` pairs, `k` the size of the
Relevant-Square Set, and their occupancy masks are pairwise distinct. -/
theorem enumeration_complete (x y : Nat) (hx : x < 8) (hy : y < 8) :
    (get_table x y).length = 2 ^ (rel x y).length ∧
    ((get_table x y).map Prod.fst).Nodup := by
  constructor
  · simp [get_table, Nat.one_shiftLeft]
  · show ((List.range (1 <<< (rel x y).length)).map (tableEntry x y (rel x y))).map Prod.fst
      |>.Nodup
    rw [List.map_map, Nat.one_shiftLeft]
    apply List.Nodup.map_on _ (List.nodup_range _)
    intro i hi i' hi' h
    exact tableEntry_mask_inj x y (rel x y) (rel_idx_nodup x y hx hy) i i'
      (List.mem_range.mp hi) (List.mem_range.mp hi') h

set_option maxRecDepth 100000 in
theorem enumeration_complete_witness :
    (get_table 0 7).length = 2 ^ (rel 0 7).length ∧
    ((get_table 0 7).map Prod.fst).Nodup :=
  enumeration_complete 0 7 (by decide) (by decide)

/-! ## The four rays -/

theorem ray_cons (board : Board) (cell : Nat → Nat × Nat) (j : Nat) (js : List Nat)
    (atk : Nat) :
    ray board cell (j :: js) atk =
      if board (cell j).1 (cell j).2 then atk ||| (1 <<< get_idx (cell j))
      else ray board cell js (atk ||| (1 <<< get_idx (cell j))) := rfl

theorem downFrom_zero : downFrom 0 = [0] := rfl

theorem downFrom_succ (y : Nat) : downFrom (y + 1) = (y + 1) :: downFrom y := by
  unfold downFrom
  rw [List.range_succ, List.reverse_append]
  rfl

/-- A downward ray marks `cell j` exactly for the `j ≤ y` with no occupied
cell at the positions `j+1, ..., y`. -/
theorem ray_downFrom (board : Board) (cell : Nat → Nat × Nat) (y : Nat) :
    ∀ atk b, (ray board cell (downFrom y) atk).testBit b = true ↔
      atk.testBit b = true ∨
        ∃ j, j ≤ y ∧ (∀ t, j < t → t ≤ y → board (cell t).1 (cell t).2 = false) ∧
          get_idx (cell j) = b := by
  induction y with
  | zero =>
    intro atk b
    have e : ray board cell (downFrom 0) atk = atk ||| (1 <<< get_idx (cell 0)) := by
      rw [downFrom_zero, ray_cons]
      split_ifs <;> rfl
    rw [e, testBit_or_shift]
    constructor
    · rintro (h | h)
      · exact Or.inl h
      · exact Or.inr ⟨0, le_rfl, fun t h1 h2 => by omega, h⟩
    · rintro (h | ⟨j, hj, _, h⟩)
      · exact Or.inl h
      · have : j = 0 := by omega
        subst this
        exact Or.inr h
  | succ y ih =>
    intro atk b
    rw [downFrom_succ, ray_cons]
    split_ifs with hb
    · rw [testBit_or_shift]
      constructor
      · rintro (h | h)
        · exact Or.inl h
        · exact Or.inr ⟨y + 1, le_rfl, fun t h1 h2 => by omega, h⟩
      · rintro (h | ⟨j, hj, hfree, h⟩)
        · exact Or.inl h
        · rcases Nat.eq_or_lt_of_le hj with e | hlt
          · subst e; exact Or.inr h
          · have := hfree (y + 1) hlt le_rfl
            rw [hb] at this
            simp at this
    · have hb' : board (cell (y + 1)).1 (cell (y + 1)).2 = false := by simpa using hb
      rw [ih, testBit_or_shift]
      constructor
      · rintro ((h | h) | ⟨j, hj, hfree, h⟩)
        · exact Or.inl h
        · exact Or.inr ⟨y + 1, le_rfl, fun t h1 h2 => by omega, h⟩
        · refine Or.inr ⟨j, by omega, ?_, h⟩
          intro t h1 h2
          rcases Nat.eq_or_lt_of_le h2 with e | hlt
          · subst e; exact hb'
          · exact hfree t h1 (by omega)
      · rintro (h | ⟨j, hj, hfree, h⟩)
        · exact Or.inl (Or.inl h)
        · rcases Nat.eq_or_lt_of_le hj with e | hlt
          · subst e; exact Or.inl (Or.inr h)
          · exact Or.inr ⟨j, by omega, fun t h1 h2 => hfree t h1 (by omega), h⟩

/-- An upward ray over `a, a+1, ..., a+n-1` marks `cell j` exactly for the
`j` in that range with no occupied cell at the positions `a, ..., j-1`. -/
theorem ray_range' (board : Board) (cell : Nat → Nat × Nat) (n : Nat) :
    ∀ a atk b, (ray board cell (List.range' a n) atk).testBit b = true ↔
      atk.testBit b = true ∨
        ∃ j, a ≤ j ∧ j < a + n ∧ (∀ t, a ≤ t → t < j → board (cell t).1 (cell t).2 = false) ∧
          get_idx (cell j) = b := by
  induction n with
  | zero =>
    intro a atk b
    simp only [List.range'_zero, ray, Nat.add_zero]
    constructor
    · exact Or.inl
    · rintro (h | ⟨j, h1, h2, _⟩)
      · exact h
      · omega
  | succ n ih =>
    intro a atk b
    rw [List.range'_succ, ray_cons]
    split_ifs with hb
    · rw [testBit_or_shift]
      constructor
      · rintro (h | h)
        · exact Or.inl h
        · exact Or.inr ⟨a, le_rfl, by omega, fun t h1 h2 => by omega, h⟩
      · rintro (h | ⟨j, hj, _, hfree, h⟩)
        · exact Or.inl h
        · rcases Nat.eq_or_lt_of_le hj with e | hlt
          · subst e; exact Or.inr h
          · have := hfree a le_rfl hlt
            rw [hb] at this
            simp at this
    · have hb' : board (cell a).1 (cell a).2 = false := by simpa using hb
      rw [ih, testBit_or_shift]
      constructor
      · rintro ((h | h) | ⟨j, hj, hj2, hfree, h⟩)
        · exact Or.inl h
        · exact Or.inr ⟨a, le_rfl, by omega, fun t h1 h2 => by omega, h⟩
        · refine Or.inr ⟨j, by omega, by omega, ?_, h⟩
          intro t h1 h2
          rcases Nat.eq_or_lt_of_le h1 with e | hlt
          · subst e; exact hb'
          · exact hfree t (by omega) h2
      · rintro (h | ⟨j, hj, hj2, hfree, h⟩)
        · exact Or.inl (Or.inl h)
        · rcases Nat.eq_or_lt_of_le hj with e | hlt
          · subst e; exact Or.inl (Or.inr h)
          · exact Or.inr ⟨j, by omega, by omega, fun t h1 h2 => hfree t (by omega) h2, h⟩

theorem get_idx_inj (r c r' c' : Nat) (hc : c < 8) (hc' : c' < 8) :
    get_idx (r, c) = get_idx (r', c') ↔ r = r' ∧ c = c' := by
  unfold get_idx SIZE
  constructor
  · intro h
    simp only at h
    omega
  · rintro ⟨rfl, rfl⟩
    rfl

/-! ## The attack sets -/

/-- On the board, a cell of `board` is set exactly when the square's bit is
set in the occupancy mask. -/
theorem board_iff_mask (x y : Nat) (hx : x < 8) (hy : y < 8) (i r c : Nat) (hr : r < 8)
    (hc : c < 8) :
    (occLoop i (rel x y) 0 (0, fun _ _ => false)).2 r c = true ↔
      (tableEntry x y (rel x y) i).1.testBit (get_idx (r, c)) = true := by
  rw [occLoop_board, tableEntry_mask]
  simp only [Bool.false_eq_true, false_or, Nat.zero_add]
  constructor
  · rintro ⟨t, sq, h1, h2, h3⟩
    exact ⟨t, sq, h1, h2, by rw [h3]⟩
  · rintro ⟨t, sq, h1, h2, h3⟩
    refine ⟨t, sq, h1, h2, ?_⟩
    have hm : sq ∈ rel x y := List.getElem?_mem h1
    obtain ⟨b1, b2, _⟩ := rel_on_board x y hx hy sq hm
    obtain ⟨a, b⟩ := sq
    obtain ⟨rfl, rfl⟩ := (get_idx_inj a b r c b2 hc).mp h3
    rfl

theorem board_target (x y : Nat) (hx : x < 8) (hy : y < 8) (i : Nat) :
    (occLoop i (rel x y) 0 (0, fun _ _ => false)).2 x y = false := by
  rw [← Bool.not_eq_true, occLoop_board]
  simp only [Bool.false_eq_true, false_or, Nat.zero_add]
  rintro ⟨t, sq, h1, _, h3⟩
  have hm : sq ∈ rel x y := List.getElem?_mem h1
  exact (rel_on_board x y hx hy sq hm).2.2 h3

/-- The attack set of the `i`-th pair: a square of the board is in it
exactly when it lies in row `x` or column `y` with no occupied square
strictly between the target and it. -/
theorem tableEntry_attack (x y : Nat) (hx : x < 8) (hy : y < 8) (i r c : Nat) (hr : r < 8)
    (hc : c < 8) :
    ((tableEntry x y (rel x y) i).2.testBit (get_idx (r, c)) = true ↔
        (r = x ∧ ∀ c', (c < c' ∧ c' < y) ∨ (y < c' ∧ c' < c) →
            (tableEntry x y (rel x y) i).1.testBit (get_idx (x, c')) = false) ∨
        (c = y ∧ ∀ r', (r < r' ∧ r' < x) ∨ (x < r' ∧ r' < r) →
            (tableEntry x y (rel x y) i).1.testBit (get_idx (r', y)) = false)) := by
  have hS : SIZE = 8 := rfl
  have hbt := board_target x y hx hy i
  have hbf : ∀ r c, r < 8 → c < 8 →
      ((occLoop i (rel x y) 0 (0, fun _ _ => false)).2 r c = false ↔
        (tableEntry x y (rel x y) i).1.testBit (get_idx (r, c)) = false) := by
    intro r c hr hc
    rw [← Bool.not_eq_true, ← Bool.not_eq_true, board_iff_mask x y hx hy i r c hr hc]
  generalize (tableEntry x y (rel x y) i).1 = occ at hbf ⊢
  show (ray _ (fun j => (j, y)) (upFrom x) (ray _ (fun j => (j, y)) (downFrom x)
      (ray _ (fun j => (x, j)) (upFrom y) (ray _ (fun j => (x, j)) (downFrom y) 0)))).testBit
        (get_idx (r, c)) = true ↔ _
  generalize (occLoop i (rel x y) 0 (0, fun _ _ => false)).2 = board at hbt hbf ⊢
  unfold upFrom
  rw [ray_range', ray_downFrom, ray_range', ray_downFrom, hS]
  constructor
  · rintro ((((h0 | ⟨j, hj, hfree, he⟩) | ⟨j, hj1, hj2, hfree, he⟩) | ⟨j, hj, hfree, he⟩) |
      ⟨j, hj1, hj2, hfree, he⟩)
    · simp at h0
    · obtain ⟨rfl, rfl⟩ := (get_idx_inj x j r c (by omega) hc).mp he
      left
      refine ⟨rfl, ?_⟩
      rintro c' (⟨h1, h2⟩ | ⟨h1, h2⟩)
      · exact (hbf x c' hx (by omega)).mp (hfree c' h1 (by omega))
      · omega
    · obtain ⟨rfl, rfl⟩ := (get_idx_inj x j r c (by omega) hc).mp he
      left
      refine ⟨rfl, ?_⟩
      rintro c' (⟨h1, h2⟩ | ⟨h1, h2⟩)
      · omega
      · exact (hbf x c' hx (by omega)).mp (hfree c' (by omega) h2)
    · obtain ⟨rfl, rfl⟩ := (get_idx_inj j y r c hy hc).mp he
      right
      refine ⟨rfl, ?_⟩
      rintro r' (⟨h1, h2⟩ | ⟨h1, h2⟩)
      · exact (hbf r' y (by omega) hy).mp (hfree r' h1 (by omega))
      · omega
    · obtain ⟨rfl, rfl⟩ := (get_idx_inj j y r c hy hc).mp he
      right
      refine ⟨rfl, ?_⟩
      rintro r' (⟨h1, h2⟩ | ⟨h1, h2⟩)
      · omega
      · exact (hbf r' y (by omega) hy).mp (hfree r' (by omega) h2)
  · rintro (⟨rfl, hfree⟩ | ⟨rfl, hfree⟩)
    · rcases Nat.le_total c y with hcy | hcy
      · refine Or.inl (Or.inl (Or.inl (Or.inr ⟨c, hcy, ?_, rfl⟩)))
        intro t h1 h2
        rcases Nat.eq_or_lt_of_le h2 with e | hlt
        · subst e; exact hbt
        · exact (hbf r t hx (by omega)).mpr (hfree t (Or.inl ⟨h1, hlt⟩))
      · refine Or.inl (Or.inl (Or.inr ⟨c, hcy, by omega, ?_, rfl⟩))
        intro t h1 h2
        rcases Nat.eq_or_lt_of_le h1 with e | hlt
        · subst e; exact hbt
        · exact (hbf r t hx (by omega)).mpr (hfree t (Or.inr ⟨hlt, h2⟩))
    · rcases Nat.le_total r x with hrx | hrx
      · refine Or.inl (Or.inr ⟨r, hrx, ?_, rfl⟩)
        intro t h1 h2
        rcases Nat.eq_or_lt_of_le h2 with e | hlt
        · subst e; exact hbt
        · exact (hbf t c (by omega) hy).mpr (hfree t (Or.inl ⟨h1, hlt⟩))
      · refine Or.inr ⟨r, hrx, by omega, ?_, rfl⟩
        intro t h1 h2
        rcases Nat.eq_or_lt_of_le h1 with e | hlt
        · subst e; exact hbt
        · exact (hbf t c (by omega) hy).mpr (hfree t (Or.inr ⟨hlt, h2⟩))

/-- C5. Blocker stop rule: for a target square `(x, y)` on the board and a
pair `(occ, atk)` of its table, a square `(r, c)` of the board is in `atk`
exactly when it lies in row `x` or column `y` and no square set in `occ`
lies strictly between the target and it. -/
theorem blocker_stop_rule (x y : Nat) (hx : x < 8) (hy : y < 8) :
    ∀ p ∈ get_table x y, ∀ r c, r < 8 → c < 8 →
      (p.2.testBit (get_idx (r, c)) = true ↔
        (r = x ∧ ∀ c', (c < c' ∧ c' < y) ∨ (y < c' ∧ c' < c) →
            p.1.testBit (get_idx (x, c')) = false) ∨
        (c = y ∧ ∀ r', (r < r' ∧ r' < x) ∨ (x < r' ∧ r' < r) →
            p.1.testBit (get_idx (r', y)) = false)) := by
  intro p hp r c hr hc
  obtain ⟨i, _, rfl⟩ := List.mem_map.mp hp
  exact tableEntry_attack x y hx hy i r c hr hc

set_option maxRecDepth 100000 in
theorem blocker_stop_rule_witness :
    (578721386831808520 : Nat).testBit (get_idx (3, 0)) = true ↔
      (3 = 3 ∧ ∀ c', (0 < c' ∧ c' < 3) ∨ (3 < c' ∧ c' < 0) →
          (33554432 : Nat).testBit (get_idx (3, c')) = false) ∨
      (0 = 3 ∧ ∀ r', (3 < r' ∧ r' < 3) ∨ (3 < r' ∧ r' < 3) →
          (33554432 : Nat).testBit (get_idx (r', 3)) = false) :=
  blocker_stop_rule 3 3 (by decide) (by decide) (33554432, 578721386831808520)
    (by rw [get_table_cons2 3 3 1022 (by decide)]; decide) 3 0 (by decide) (by decide)

/-! ## The pairs of the table by position -/

theorem get_table_getElem? (x y i : Nat) (hi : i < 2 ^ (rel x y).length) :
    (get_table x y)[i]? = some (tableEntry x y (rel x y) i) := by
  show ((List.range (1 <<< (rel x y).length)).map (tableEntry x y (rel x y)))[i]? = _
  rw [List.getElem?_map, Nat.one_shiftLeft, List.getElem?_range hi]
  rfl

theorem tableEntry_mem (x y i : Nat) (hi : i < 2 ^ (rel x y).length) :
    tableEntry x y (rel x y) i ∈ get_table x y :=
  List.getElem?_mem (get_table_getElem? x y i hi)

theorem tableEntry_zero_mask (x y : Nat) (rl : List (Nat × Nat)) :
    (tableEntry x y rl 0).1 = 0 := by
  apply Nat.eq_of_testBit_eq
  intro b
  rw [Nat.zero_testBit, ← Bool.not_eq_true, tableEntry_mask]
  rintro ⟨t, sq, _, h, _⟩
  simp at h

/-- C11. Attack inclusivity: for a target square on the board the first
pair of the table has occupancy 0 and its attack set contains every square
of row `x` and every square of column `y`. -/
theorem attack_inclusive (x y : Nat) (hx : x < 8) (hy : y < 8) :
    ∃ atk, (get_table x y)[0]? = some (0, atk) ∧
      ∀ r c, r < 8 → c < 8 → (r = x ∨ c = y) → atk.testBit (get_idx (r, c)) = true := by
  refine ⟨(tableEntry x y (rel x y) 0).2, ?_, ?_⟩
  · rw [get_table_getElem? x y 0 (Nat.two_pow_pos _)]
    congr 1
    exact Prod.ext (tableEntry_zero_mask x y _) rfl
  · intro r c hr hc h
    rw [tableEntry_attack x y hx hy 0 r c hr hc, tableEntry_zero_mask]
    rcases h with h | h
    · exact Or.inl ⟨h, fun _ _ => Nat.zero_testBit _⟩
    · exact Or.inr ⟨h, fun _ _ => Nat.zero_testBit _⟩

set_option maxRecDepth 100000 in
theorem attack_inclusive_witness :
    ∃ atk, (get_table 7 0)[0]? = some (0, atk) ∧
      ∀ r c, r < 8 → c < 8 → (r = 7 ∨ c = 0) → atk.testBit (get_idx (r, c)) = true :=
  attack_inclusive 7 0 (by decide) (by decide)

theorem pack_lt (m : Nat) (l : List (Nat × Nat)) : pack m l < 2 ^ l.length := by
  induction l with
  | nil => simp [pack]
  | cons sq rest ih =>
    simp only [pack, List.length_cons, pow_succ]
    split_ifs <;> omega

theorem pack_testBit (m : Nat) (l : List (Nat × Nat)) :
    ∀ j, (pack m l).testBit j = true ↔ ∃ sq, l[j]? = some sq ∧ m.testBit (get_idx sq) = true := by
  induction l with
  | nil => intro j; simp [pack]
  | cons sq rest ih =>
    intro j
    cases j with
    | zero =>
      simp only [pack, Nat.testBit_zero, List.getElem?_cons_zero, Option.some.injEq,
        exists_eq_left', decide_eq_true_eq]
      split_ifs with h
      · simp [h]
      · simp [h]
    | succ j =>
      rw [Nat.testBit_succ, List.getElem?_cons_succ, ← ih j]
      have : pack m (sq :: rest) / 2 = pack m rest := by
        simp only [pack]
        split_ifs <;> omega
      rw [this]

/-- C13. Occupancy construction: for a target square on the board, the
occupancy mask of the `i`-th pair has bit `get_idx(rel[j])` set exactly when
bit `j` of `i` is set and has no other bit set; and every mask made of bits
of relevant squares is the occupancy of exactly one pair. -/
theorem occupancy_construction (x y : Nat) (hx : x < 8) (hy : y < 8) :
    (∀ i, i < 2 ^ (rel x y).length →
      ∃ p, (get_table x y)[i]? = some p ∧
        (∀ j sq, (rel x y)[j]? = some sq →
          (p.1.testBit (get_idx sq) = true ↔ i.testBit j = true)) ∧
        (∀ b, p.1.testBit b = true → ∃ (j : Nat) (sq : Nat × Nat), (rel x y)[j]? = some sq ∧ get_idx sq = b)) ∧
    (∀ m, (∀ b, m.testBit b = true → ∃ sq ∈ rel x y, get_idx sq = b) →
      ∃! i, i < 2 ^ (rel x y).length ∧ ((get_table x y)[i]?).map Prod.fst = some m) := by
  have hn := rel_idx_nodup x y hx hy
  constructor
  · intro i hi
    refine ⟨_, get_table_getElem? x y i hi, ?_, ?_⟩
    · intro j sq hj
      rw [tableEntry_mask_at x y (rel x y) hn i j sq hj]
    · intro b hb
      obtain ⟨t, sq, h1, _, h3⟩ := (tableEntry_mask x y (rel x y) i b).mp hb
      exact ⟨t, sq, h1, h3⟩
  · intro m hm
    have hmask : (tableEntry x y (rel x y) (pack m (rel x y))).1 = m := by
      apply Nat.eq_of_testBit_eq
      intro b
      rw [Bool.eq_iff_iff, tableEntry_mask]
      constructor
      · rintro ⟨t, sq, h1, h2, h3⟩
        obtain ⟨sq', h4, h5⟩ := (pack_testBit m (rel x y) t).mp h2
        rw [h1] at h4
        simp only [Option.some.injEq] at h4
        subst h4
        rw [← h3]; exact h5
      · intro hb
        obtain ⟨sq, hsq, rfl⟩ := hm b hb
        obtain ⟨t, ht⟩ := List.mem_iff_getElem?.mp hsq
        exact ⟨t, sq, ht, (pack_testBit m (rel x y) t).mpr ⟨sq, ht, hb⟩, rfl⟩
    refine ⟨pack m (rel x y), ⟨pack_lt _ _, ?_⟩, ?_⟩
    · rw [get_table_getElem? x y _ (pack_lt _ _)]
      simp [hmask]
    · rintro i ⟨hi, he⟩
      rw [get_table_getElem? x y i hi] at he
      simp only [Option.map_some', Option.some.injEq] at he
      exact tableEntry_mask_inj x y (rel x y) hn i _ hi (pack_lt _ _) (he.trans hmask.symm)

set_option maxRecDepth 100000 in
theorem occupancy_construction_witness :
    (∀ i, i < 2 ^ (rel 4 1).length →
      ∃ p, (get_table 4 1)[i]? = some p ∧
        (∀ j sq, (rel 4 1)[j]? = some sq →
          (p.1.testBit (get_idx sq) = true ↔ i.testBit j = true)) ∧
        (∀ b, p.1.testBit b = true → ∃ (j : Nat) (sq : Nat × Nat), (rel 4 1)[j]? = some sq ∧ get_idx sq = b)) ∧
    (∀ m, (∀ b, m.testBit b = true → ∃ sq ∈ rel 4 1, get_idx sq = b) →
      ∃! i, i < 2 ^ (rel 4 1).length ∧ ((get_table 4 1)[i]?).map Prod.fst = some m) :=
  occupancy_construction 4 1 (by decide) (by decide)

/-! ## No multiplier answers the table of a square -/

theorem rel_high_square (x y : Nat) (hx : x < 8) (hy : y < 8) :
    ∃ j, j < (rel x y).length ∧ 42 ≤ get_idx ((rel x y).getD j (0, 0)) ∧
      (tableEntry x y (rel x y) (2 ^ j)).1 = 2 ^ get_idx ((rel x y).getD j (0, 0)) ∧
      (tableEntry x y (rel x y) (2 ^ j)).2 ≠ (tableEntry x y (rel x y) 0).2 := by
  interval_cases x <;> interval_cases y <;> decide

theorem hashIndex_high (b mul : Nat) (hb : 42 ≤ b) : hashIndex (2 ^ b) mul = 0 := by
  apply hashIndex_zero
  have e : (2 : Nat) ^ b >>> 10 = 2 ^ 32 * 2 ^ (b - 42) := by
    rw [Nat.shiftRight_eq_div_pow, Nat.pow_div (by omega) (by norm_num), ← pow_add]
    congr 1
    omega
  rw [e, Nat.mul_assoc, Nat.mul_mod_right]

theorem hashIndex_empty (mul : Nat) : hashIndex 0 mul = 0 := by
  apply hashIndex_zero
  simp

/-- The table of a square on the board has two pairs with index 0 under
every multiplier and different attack sets: the empty occupancy and the
occupancy of one relevant square of linear index at least 42. -/
theorem get_table_collision (x y : Nat) (hx : x < 8) (hy : y < 8) :
    ∃ sq ∈ rel x y, 42 ≤ get_idx sq ∧
      ∃ a0 a1, (0, a0) ∈ get_table x y ∧ (2 ^ get_idx sq, a1) ∈ get_table x y ∧ a0 ≠ a1 ∧
        ∀ mul, hashIndex 0 mul = 0 ∧ hashIndex (2 ^ get_idx sq) mul = 0 := by
  obtain ⟨j, hj, h42, hm, hne⟩ := rel_high_square x y hx hy
  have hlt : 2 ^ j < 2 ^ (rel x y).length := Nat.pow_lt_pow_right (by norm_num) hj
  have m0 := tableEntry_mem x y 0 (Nat.two_pow_pos _)
  have m1 := tableEntry_mem x y (2 ^ j) hlt
  have hsq : (rel x y).getD j (0, 0) ∈ rel x y := by
    rw [List.getD_eq_getElem _ _ hj]
    exact List.getElem_mem _
  refine ⟨_, hsq, h42, (tableEntry x y (rel x y) 0).2, (tableEntry x y (rel x y) (2 ^ j)).2,
    ?_, ?_, fun h => hne h.symm, fun mul => ⟨hashIndex_empty mul, hashIndex_high _ _ h42⟩⟩
  · have e : ((0 : Nat), (tableEntry x y (rel x y) 0).2) = tableEntry x y (rel x y) 0 :=
      Prod.ext (tableEntry_zero_mask x y _).symm rfl
    rw [e]; exact m0
  · have e : (2 ^ get_idx ((rel x y).getD j (0, 0)), (tableEntry x y (rel x y) (2 ^ j)).2)
        = tableEntry x y (rel x y) (2 ^ j) := Prod.ext hm.symm rfl
    rw [e]; exact m1

/-- The verification loop never runs to its end on the table of a square on
the board, whatever the candidate and the state. -/
theorem get_table_never_verifies (x y : Nat) (hx : x < 8) (hy : y < 8) (s s' : State) :
    verifyLoop (get_table x y) s ≠ some (true, s') := by
  intro h
  obtain ⟨sq, _, _, a0, a1, m0, m1, hne, hz⟩ := get_table_collision x y hx hy
  obtain ⟨_, _, _, hc⟩ := verifyLoop_sound _ _ _ h
  have t0 := (hc _ m0).2
  have t1 := (hc _ m1).2
  simp only at t0 t1
  rw [(hz s.mul).1] at t0
  rw [(hz s.mul).2] at t1
  exact hne (t0.symm.trans t1)

theorem get_table_verifies_false (x y : Nat) (hx : x < 8) (hy : y < 8) (mul : Nat) :
    verifies (get_table x y) mul = false := by
  unfold verifies
  split
  · next s' h => exact absurd h (get_table_never_verifies x y hx hy _ _)
  · rfl

theorem get_magic_never_returns (x y : Nat) (hx : x < 8) (hy : y < 8) (a b : Int) :
    get_magic x y ≠ Result.ret a b := by
  intro h
  obtain ⟨sq, _, _, a0, a1, m0, m1, hne, _⟩ := get_table_collision x y hx hy
  unfold get_magic at h
  rcases e : search (get_table x y) with _ | (_ | s')
  · rw [e] at h; cases h
  · rw [e] at h; cases h
  · exact search_clash (get_table x y) ⟨_, m0, _, m1, hne⟩ s' e

/-- C16. No multiplier passes for any square: for a target square on the
board the table has the empty occupancy and the occupancy of one relevant
square of linear index at least 42; both get index 0 under every multiplier
while their attack sets differ; so the verification of no multiplier
succeeds, in whatever state it is run, and `get_magic` never returns a
pair. -/
theorem no_multiplier_passes (x y : Nat) (hx : x < 8) (hy : y < 8) :
    (∃ sq ∈ rel x y, 42 ≤ get_idx sq ∧
      ∃ a0 a1, (0, a0) ∈ get_table x y ∧ (2 ^ get_idx sq, a1) ∈ get_table x y ∧ a0 ≠ a1 ∧
        ∀ mul, hashIndex 0 mul = 0 ∧ hashIndex (2 ^ get_idx sq) mul = 0) ∧
    (∀ s s', verifyLoop (get_table x y) s ≠ some (true, s')) ∧
    (∀ mul, verifies (get_table x y) mul = false) ∧
    (∀ a b, get_magic x y ≠ Result.ret a b) :=
  ⟨get_table_collision x y hx hy, get_table_never_verifies x y hx hy,
    get_table_verifies_false x y hx hy, get_magic_never_returns x y hx hy⟩

set_option maxRecDepth 100000 in
theorem no_multiplier_passes_witness :
    (∃ sq ∈ rel 0 0, 42 ≤ get_idx sq ∧
      ∃ a0 a1, (0, a0) ∈ get_table 0 0 ∧ (2 ^ get_idx sq, a1) ∈ get_table 0 0 ∧ a0 ≠ a1 ∧
        ∀ mul, hashIndex 0 mul = 0 ∧ hashIndex (2 ^ get_idx sq) mul = 0) ∧
    (∀ s s', verifyLoop (get_table 0 0) s ≠ some (true, s')) ∧
    (∀ mul, verifies (get_table 0 0) mul = false) ∧
    (∀ a b, get_magic 0 0 ≠ Result.ret a b) :=
  no_multiplier_passes 0 0 (by decide) (by decide)

/-! ## The stamped verification against a cleared table -/

theorem verifyCleared_cons_none (mul : Nat) (v : Nat × Nat) (rest : List (Nat × Nat))
    (t : Int → Option Nat) (h : t (hashIndex v.1 mul) = none) :
    verifyCleared mul (v :: rest) t =
      verifyCleared mul rest (Function.update t (hashIndex v.1 mul) (some v.2)) := by
  simp only [verifyCleared, h]

theorem verifyCleared_cons_some (mul : Nat) (v : Nat × Nat) (rest : List (Nat × Nat))
    (t : Int → Option Nat) (a : Nat) (h : t (hashIndex v.1 mul) = some a) :
    verifyCleared mul (v :: rest) t = if a = v.2 then verifyCleared mul rest t else false := by
  simp only [verifyCleared, h]

/-- The stamped loop, started with the slots of the current generation
holding what the cleared table holds, returns what the reference
verification returns. -/
theorem verifyLoop_eq_cleared (l : List (Nat × Nat)) :
    ∀ s t, (∀ p ∈ l, 0 ≤ hashIndex p.1 s.mul) →
      (∀ g, t g = if s.vis g = s.cnt then some (s.table g) else none) →
      (verifyLoop l s).map Prod.fst = some (verifyCleared s.mul l t) := by
  induction l with
  | nil => intro s t _ _; rfl
  | cons v rest ih =>
    intro s t hidx ht
    have h0 := hidx v (List.mem_cons_self _ _)
    have hlt := hashIndex_lt v.1 s.mul
    simp only [verifyLoop]
    rw [if_neg (by omega)]
    by_cases hv : s.vis (hashIndex v.1 s.mul) = s.cnt
    · have hst : stamp s (hashIndex v.1 s.mul) v.2 = s := by
        unfold stamp
        rw [if_neg (by simp [hv])]
      have hth : t (hashIndex v.1 s.mul) = some (s.table (hashIndex v.1 s.mul)) := by
        rw [ht, if_pos hv]
      rw [hst, verifyCleared_cons_some _ _ _ _ _ hth]
      by_cases he : s.table (hashIndex v.1 s.mul) = v.2
      · rw [if_neg (by simp [he]), if_pos he]
        exact ih s t (fun p hp => hidx p (List.mem_cons_of_mem _ hp)) ht
      · rw [if_pos he, if_neg he]
        rfl
    · have hth : t (hashIndex v.1 s.mul) = none := by
        rw [ht, if_neg hv]
      have htab : (stamp s (hashIndex v.1 s.mul) v.2).table (hashIndex v.1 s.mul) = v.2 := by
        unfold stamp
        rw [if_pos hv]
        simp
      rw [verifyCleared_cons_none _ _ _ _ hth, if_neg (by simp [htab])]
      have := ih (stamp s (hashIndex v.1 s.mul) v.2)
        (Function.update t (hashIndex v.1 s.mul) (some v.2))
        (by
          intro p hp
          rw [stamp_mul]
          exact hidx p (List.mem_cons_of_mem _ hp))
        (by
          intro g
          unfold stamp
          rw [if_pos hv]
          by_cases e : g = hashIndex v.1 s.mul
          · subst e; simp
          · simp only [Function.update_noteq e]
            exact ht g)
      rw [stamp_mul] at this
      exact this

/-- The reference verification succeeds exactly when the pairs agree with
what the table already holds and with each other. -/
theorem verifyCleared_iff (mul : Nat) (l : List (Nat × Nat)) :
    ∀ t, verifyCleared mul l t = true ↔
      (∀ p ∈ l, ∀ a, t (hashIndex p.1 mul) = some a → a = p.2) ∧
      (∀ p1 ∈ l, ∀ p2 ∈ l, hashIndex p1.1 mul = hashIndex p2.1 mul → p1.2 = p2.2) := by
  induction l with
  | nil => intro t; simp [verifyCleared]
  | cons v rest ih =>
    intro t
    rcases hth : t (hashIndex v.1 mul) with _ | a
    · rw [verifyCleared_cons_none _ _ _ _ hth, ih]
      constructor
      · rintro ⟨h1, h2⟩
        constructor
        · intro p hp a ha
          rcases List.mem_cons.mp hp with rfl | hp
          · rw [hth] at ha; cases ha
          · apply h1 p hp a
            by_cases e : hashIndex p.1 mul = hashIndex v.1 mul
            · rw [e, hth] at ha; cases ha
            · rw [Function.update_noteq e]; exact ha
        · intro p1 hp1 p2 hp2 he
          rcases List.mem_cons.mp hp1 with e1 | hq1 <;>
            rcases List.mem_cons.mp hp2 with e2 | hq2
          · rw [e1, e2]
          · rw [e1]; exact h1 p2 hq2 _ (by rw [← he, e1]; simp)
          · rw [e2]; exact (h1 p1 hq1 _ (by rw [he, e2]; simp)).symm
          · exact h2 p1 hq1 p2 hq2 he
      · rintro ⟨h1, h2⟩
        constructor
        · intro p hp a ha
          by_cases e : hashIndex p.1 mul = hashIndex v.1 mul
          · rw [e] at ha
            simp only [Function.update_same, Option.some.injEq] at ha
            rw [← ha]
            exact h2 v (List.mem_cons_self _ _) p (List.mem_cons_of_mem _ hp) e.symm
          · rw [Function.update_noteq e] at ha
            exact h1 p (List.mem_cons_of_mem _ hp) a ha
        · intro p1 hp1 p2 hp2 he
          exact h2 p1 (List.mem_cons_of_mem _ hp1) p2 (List.mem_cons_of_mem _ hp2) he
    · rw [verifyCleared_cons_some _ _ _ _ _ hth]
      by_cases e : a = v.2
      · rw [if_pos e, ih]
        constructor
        · rintro ⟨h1, h2⟩
          constructor
          · intro p hp b hb
            rcases List.mem_cons.mp hp with rfl | hp
            · rw [hth] at hb
              simp only [Option.some.injEq] at hb
              rw [← hb]; exact e
            · exact h1 p hp b hb
          · intro p1 hp1 p2 hp2 he
            rcases List.mem_cons.mp hp1 with e1 | hq1 <;>
              rcases List.mem_cons.mp hp2 with e2 | hq2
            · rw [e1, e2]
            · rw [e1, ← e]; exact h1 p2 hq2 a (by rw [← he, e1]; exact hth)
            · rw [e2, ← e]; exact (h1 p1 hq1 a (by rw [he, e2]; exact hth)).symm
            · exact h2 p1 hq1 p2 hq2 he
        · rintro ⟨h1, h2⟩
          exact ⟨fun p hp => h1 p (List.mem_cons_of_mem _ hp),
            fun p1 hp1 p2 hp2 => h2 p1 (List.mem_cons_of_mem _ hp1) p2
              (List.mem_cons_of_mem _ hp2)⟩
      · rw [if_neg e]
        constructor
        · intro h; cases h
        · rintro ⟨h1, _⟩
          exact absurd (h1 v (List.mem_cons_self _ _) a hth) e

/-- C14. Generation-stamp verification equals fresh-table verification:
for a table whose indices under `s.mul` all lie in `[0, 65536)` and a state
in which no stamp equals the current generation, the stamped loop returns
what a verification on a freshly cleared table returns, and that is success
exactly when all pairs that share an index have the same attack set. -/
theorem stamped_eq_cleared (l : List (Nat × Nat)) (s : State)
    (hidx : ∀ p ∈ l, 0 ≤ hashIndex p.1 s.mul ∧ hashIndex p.1 s.mul < 65536)
    (hfresh : ∀ g, s.vis g ≠ s.cnt) :
    (verifyLoop l s).map Prod.fst = some (verifyCleared s.mul l (fun _ => none)) ∧
    (verifyCleared s.mul l (fun _ => none) = true ↔
      ∀ p1 ∈ l, ∀ p2 ∈ l, hashIndex p1.1 s.mul = hashIndex p2.1 s.mul → p1.2 = p2.2) := by
  constructor
  · apply verifyLoop_eq_cleared l s _ (fun p hp => (hidx p hp).1)
    intro g
    rw [if_neg (hfresh g)]
  · rw [verifyCleared_iff]
    constructor
    · exact fun h => h.2
    · intro h
      exact ⟨fun p _ a ha => (by cases ha), h⟩

theorem stamped_eq_cleared_witness :
    (∀ p ∈ [(1024, 5), (2048, 9), (1024, 5)],
      0 ≤ hashIndex p.1 3 ∧ hashIndex p.1 3 < 65536) ∧
    (∀ g, (if g = 3 then (1 : Int) else -1) ≠ 2) ∧
    ((verifyLoop [(1024, 5), (2048, 9), (1024, 5)]
        { mul := 3, cnt := 2, vis := fun g => if g = 3 then 1 else -1,
          table := fun _ => 77 }).map Prod.fst
      = some (verifyCleared 3 [(1024, 5), (2048, 9), (1024, 5)] (fun _ => none)) ∧
    (verifyCleared 3 [(1024, 5), (2048, 9), (1024, 5)] (fun _ => none) = true ↔
      ∀ p1 ∈ [(1024, 5), (2048, 9), (1024, 5)], ∀ p2 ∈ [(1024, 5), (2048, 9), (1024, 5)],
        hashIndex p1.1 3 = hashIndex p2.1 3 → p1.2 = p2.2)) :=
  ⟨by decide, fun g => by by_cases h : g = 3 <;> simp [h],
   stamped_eq_cleared [(1024, 5), (2048, 9), (1024, 5)]
     { mul := 3, cnt := 2, vis := fun g => if g = 3 then 1 else -1, table := fun _ => 77 }
     (by decide) (fun g => by by_cases h : g = 3 <;> simp [h])⟩

set_option maxRecDepth 100000 in
/-- C12. Search exhaustion fails for the target square (3,3): no multiplier
passes verification against its table, yet `get_magic(3,3)` does not end in
the fatal assertion; it ends in an array access with a negative index. -/
theorem exhaustion_3_3 :
    (∀ mul, verifies (get_table 3 3) mul = false) ∧
    get_magic 3 3 ≠ Result.assertFail ∧ get_magic 3 3 = Result.undefined := by
  have hs : search (get_table 3 3) = none := by
    rw [get_table_cons2 3 3 1022 (by decide)]
    exact search_fault_cons2 _ _ _ (by decide) (by decide)
  have hu : get_magic 3 3 = Result.undefined := by unfold get_magic; rw [hs]; rfl
  refine ⟨get_table_verifies_false 3 3 (by decide) (by decide), ?_, hu⟩
  rw [hu]
  decide

set_option maxRecDepth 100000 in
/-- C15. In-bounds access fails for the target square (3,3): the second pair
of its table has occupancy `2^25`, under the candidate `2^16` its index is
`-2147483648`, outside `[0, 65536)`; the verification of that candidate
started with a fresh generation reaches this access; and `get_magic(3,3)`
ends in undefined behaviour. -/
theorem index_out_of_bounds_3_3 :
    (tableEntry 3 3 (rel 3 3) 1).1 = 2 ^ 25 ∧
    hashIndex (2 ^ 25) (2 ^ 16) = -2147483648 ∧
    ¬ (0 ≤ hashIndex (2 ^ 25) (2 ^ 16) ∧ hashIndex (2 ^ 25) (2 ^ 16) < 65536) ∧
    (∀ s, s.mul = 2 ^ 16 → (∀ g, s.vis g ≠ s.cnt) → verifyLoop (get_table 3 3) s = none) ∧
    get_magic 3 3 = Result.undefined := by
  have ht := get_table_cons2 3 3 1022 (by decide)
  have hs : search (get_table 3 3) = none := by
    rw [ht]
    exact search_fault_cons2 _ _ _ (by decide) (by decide)
  refine ⟨by decide, by decide, by decide, ?_, by unfold get_magic; rw [hs]; rfl⟩
  intro s hm hf
  rw [ht]
  have e0 : tableEntry 3 3 (rel 3 3) 0 = (0, 578721386848585736) := by decide
  have e1 : tableEntry 3 3 (rel 3 3) 1 = (33554432, 578721386831808520) := by decide
  rw [e0, e1]
  apply verifyLoop_fault 578721386848585736 578721386831808520 33554432 _ [(0, 578721386848585736)]
  · intro p hp
    simp only [List.mem_singleton] at hp
    subst hp
    exact ⟨rfl, Or.inl (hashIndex_empty _)⟩
  · left
    rw [hm]
    decide
  · exact Or.inl (hf 0)

/-! ## The record of calls agrees with the closure -/

theorem recTrace_zero (pairs : List (Nat × Nat)) (n : Nat) (k : Int) (dp : Nat)
    (path : List Nat) (s : State) :
    recTrace pairs 0 n k dp path s =
      (if k = 0 then some (false, s)
       else if s.cnt = INT_MAX then none
       else verifyLoop pairs { s with cnt := s.cnt + 1 },
       [⟨dp, n, k, path, s⟩]) := rfl

theorem recTrace_succ (pairs : List (Nat × Nat)) (d n : Nat) (k : Int) (dp : Nat)
    (path : List Nat) (s : State) :
    recTrace pairs (d + 1) n k dp path s =
      match (recTrace pairs d (n + 1) k (dp + 1) path { s with mul := clearBit s.mul n }).1 with
      | none => (none, ⟨dp, n, k, path, s⟩ ::
          (recTrace pairs d (n + 1) k (dp + 1) path { s with mul := clearBit s.mul n }).2)
      | some (true, s1) => (some (true, s1), ⟨dp, n, k, path, s⟩ ::
          (recTrace pairs d (n + 1) k (dp + 1) path { s with mul := clearBit s.mul n }).2)
      | some (false, s1) =>
        if k > 0 then
          ((recTrace pairs d (n + 1) (k - 1) (dp + 1) (n :: path)
              { s1 with mul := setBit s1.mul n }).1,
            ⟨dp, n, k, path, s⟩ ::
              ((recTrace pairs d (n + 1) k (dp + 1) path
                  { s with mul := clearBit s.mul n }).2 ++
                (recTrace pairs d (n + 1) (k - 1) (dp + 1) (n :: path)
                  { s1 with mul := setBit s1.mul n }).2))
        else (some (false, s1), ⟨dp, n, k, path, s⟩ ::
          (recTrace pairs d (n + 1) k (dp + 1) path { s with mul := clearBit s.mul n }).2) :=
  rfl

/-- The recorded run returns what `rec` returns. -/
theorem recTrace_result (pairs : List (Nat × Nat)) (d : Nat) :
    ∀ n (k : Nat) dp path s,
      (recTrace pairs d n (k : Int) dp path s).1 = recAux pairs d n k s := by
  induction d with
  | zero =>
    intro n k dp path s
    rw [recTrace_zero, recAux_zero]
    unfold leaf
    simp only [Nat.cast_eq_zero]
  | succ d ih =>
    intro n k dp path s
    rw [recTrace_succ, recAux_succ]
    have h1 := ih (n + 1) k (dp + 1) path { s with mul := clearBit s.mul n }
    rcases e : recAux pairs d (n + 1) k { s with mul := clearBit s.mul n } with _ | ⟨b, s1⟩
    · rw [e] at h1; rw [h1]
    · rw [e] at h1
      rw [h1]
      cases b
      · simp only
        by_cases hk : k > 0
        · rw [if_pos hk, if_pos (by exact_mod_cast hk)]
          have e2 : ((k : Int) - 1) = ((k - 1 : Nat) : Int) := by omega
          rw [e2]
          exact ih _ _ _ _ _
        · rw [if_neg hk, if_neg (by omega)]
      · rfl

/-- The two shapes of a recorded call below the leaf level: the set-branch
is not entered, or the clear-branch returned 0 with budget left and the
set-branch is entered. -/
theorem recTrace_succ_cases (pairs : List (Nat × Nat)) (d n : Nat) (k : Int) (dp : Nat)
    (path : List Nat) (s : State) :
    (recTrace pairs (d + 1) n k dp path s =
        ((recTrace pairs d (n + 1) k (dp + 1) path { s with mul := clearBit s.mul n }).1,
          ⟨dp, n, k, path, s⟩ ::
            (recTrace pairs d (n + 1) k (dp + 1) path { s with mul := clearBit s.mul n }).2)) ∨
    ∃ s1, (recTrace pairs d (n + 1) k (dp + 1) path { s with mul := clearBit s.mul n }).1
          = some (false, s1) ∧ k > 0 ∧
      recTrace pairs (d + 1) n k dp path s =
        ((recTrace pairs d (n + 1) (k - 1) (dp + 1) (n :: path)
            { s1 with mul := setBit s1.mul n }).1,
          ⟨dp, n, k, path, s⟩ ::
            ((recTrace pairs d (n + 1) k (dp + 1) path { s with mul := clearBit s.mul n }).2 ++
              (recTrace pairs d (n + 1) (k - 1) (dp + 1) (n :: path)
                { s1 with mul := setBit s1.mul n }).2)) := by
  rw [recTrace_succ]
  rcases e : (recTrace pairs d (n + 1) k (dp + 1) path { s with mul := clearBit s.mul n }).1
    with _ | ⟨b, s1⟩
  · exact Or.inl rfl
  · cases b
    · by_cases hk : k > 0
      · right
        exact ⟨s1, rfl, hk, by simp only [if_pos hk]⟩
      · left
        simp only [if_neg hk]
    · exact Or.inl rfl

/-- Every recorded call of `rec(n, k)` with `k ≥ 0` has its position between
`n` and `n + d`, its depth equal to the number of positions passed, and a
budget between 0 and `k`. -/
theorem recTrace_calls (pairs : List (Nat × Nat)) (d : Nat) :
    ∀ n (k : Int) dp path s, 0 ≤ k →
      ∀ c ∈ (recTrace pairs d n k dp path s).2,
        n ≤ c.n ∧ c.n ≤ n + d ∧ c.depth = dp + (c.n - n) ∧ 0 ≤ c.k ∧ c.k ≤ k := by
  induction d with
  | zero =>
    intro n k dp path s hk c hc
    rw [recTrace_zero] at hc
    simp only [List.mem_singleton] at hc
    subst hc
    exact ⟨le_rfl, le_rfl, by simp, hk, le_rfl⟩
  | succ d ih =>
    intro n k dp path s hk c hc
    have h1 := ih (n + 1) k (dp + 1) path { s with mul := clearBit s.mul n } hk
    rcases recTrace_succ_cases pairs d n k dp path s with e | ⟨s1, _, hpos, e⟩
    · rw [e] at hc
      rcases List.mem_cons.mp hc with rfl | hc
      · exact ⟨le_rfl, by simp, by simp, hk, le_rfl⟩
      · obtain ⟨a1, a2, a3, a4, a5⟩ := h1 c hc
        exact ⟨by omega, by omega, by omega, a4, a5⟩
    · rw [e] at hc
      rcases List.mem_cons.mp hc with rfl | hc
      · exact ⟨le_rfl, by simp, by simp, hk, le_rfl⟩
      · rcases List.mem_append.mp hc with hc | hc
        · obtain ⟨a1, a2, a3, a4, a5⟩ := h1 c hc
          exact ⟨by omega, by omega, by omega, a4, a5⟩
        · obtain ⟨a1, a2, a3, a4, a5⟩ := ih (n + 1) (k - 1) (dp + 1) (n :: path)
            { s1 with mul := setBit s1.mul n } (by omega) c hc
          exact ⟨by omega, by omega, by omega, a4, by omega⟩

/-! ## Termination of the backtracking -/

/-- The source equations of `rec`: the leaf at `n = 64`. -/
theorem rec_at_64 (pairs : List (Nat × Nat)) (k : Nat) (s : State) :
    rec pairs 64 k s = leaf pairs k s := rfl

/-- The source equations of `rec`: the two branches below `n = 64`. -/
theorem rec_below_64 (pairs : List (Nat × Nat)) (n k : Nat) (s : State) (hn : n < 64) :
    rec pairs n k s =
      match rec pairs (n + 1) k { s with mul := clearBit s.mul n } with
      | none => none
      | some (true, s1) => some (true, s1)
      | some (false, s1) =>
        if k > 0 then rec pairs (n + 1) (k - 1) { s1 with mul := setBit s1.mul n }
        else some (false, s1) := by
  have h1 : n ≤ 64 := by omega
  have h2 : n + 1 ≤ 64 := by omega
  have e : 64 - n = (64 - (n + 1)) + 1 := by omega
  simp only [rec, if_pos h1, if_pos h2]
  rw [e, recAux_succ]

theorem traceRec_result (pairs : List (Nat × Nat)) (n k : Nat) (s : State) (hn : n ≤ 64) :
    (traceRec pairs n (k : Int) s).1 = rec pairs n k s := by
  unfold traceRec rec
  rw [if_pos hn]
  exact recTrace_result pairs _ _ _ _ _ _

theorem budgetTrace_nil (pairs : List (Nat × Nat)) (s : State) :
    budgetTrace pairs [] s = (some none, []) := rfl

theorem budgetTrace_cons (pairs : List (Nat × Nat)) (i : Nat) (is : List Nat) (s : State) :
    budgetTrace pairs (i :: is) s =
      match (traceRec pairs 0 (i : Int) s).1 with
      | none => (none, (traceRec pairs 0 (i : Int) s).2)
      | some (true, s1) => (some (some s1), (traceRec pairs 0 (i : Int) s).2)
      | some (false, s1) =>
        ((budgetTrace pairs is s1).1,
          (traceRec pairs 0 (i : Int) s).2 ++ (budgetTrace pairs is s1).2) := rfl

/-- The two shapes of the recorded budget loop: it stops after the budget
`i`, or `rec(0, i)` returned 0 and the loop goes on. -/
theorem budgetTrace_cases (pairs : List (Nat × Nat)) (i : Nat) (is : List Nat) (s : State) :
    (budgetTrace pairs (i :: is) s).2 = (traceRec pairs 0 (i : Int) s).2 ∨
    ∃ s1, (traceRec pairs 0 (i : Int) s).1 = some (false, s1) ∧
      budgetTrace pairs (i :: is) s =
        ((budgetTrace pairs is s1).1,
          (traceRec pairs 0 (i : Int) s).2 ++ (budgetTrace pairs is s1).2) := by
  rw [budgetTrace_cons]
  rcases e : (traceRec pairs 0 (i : Int) s).1 with _ | ⟨b, s1⟩
  · exact Or.inl rfl
  · cases b
    · exact Or.inr ⟨s1, rfl, rfl⟩
    · exact Or.inl rfl

theorem budgetTrace_result (pairs : List (Nat × Nat)) (is : List Nat) :
    ∀ s, (budgetTrace pairs is s).1 = budgetLoop pairs is s := by
  induction is with
  | nil => intro s; rfl
  | cons i is ih =>
    intro s
    rw [budgetTrace_cons, budgetLoop_cons, traceRec_result pairs 0 i s (by omega)]
    rcases rec pairs 0 i s with _ | ⟨b, s1⟩
    · rfl
    · cases b
      · exact ih s1
      · rfl

theorem topBudgets_append (l1 l2 : List Call) :
    topBudgets (l1 ++ l2) = topBudgets l1 ++ topBudgets l2 := by
  simp [topBudgets]

theorem topBudgets_nested (l : List Call) (h : ∀ c ∈ l, c.depth ≠ 0) : topBudgets l = [] := by
  unfold topBudgets
  rw [List.filter_eq_nil_iff.mpr]
  · rfl
  · intro c hc
    simpa using h c hc

theorem topBudgets_traceRec (pairs : List (Nat × Nat)) (k : Int) (s : State) (hk : 0 ≤ k) :
    topBudgets (traceRec pairs 0 k s).2 = [k] := by
  show topBudgets (recTrace pairs (63 + 1) 0 k 0 [] s).2 = [k]
  have inner : ∀ (k' : Int) path (s' : State), 0 ≤ k' →
      topBudgets (recTrace pairs 63 1 k' 1 path s').2 = [] := by
    intro k' path s' hk'
    apply topBudgets_nested
    intro c hc
    have := (recTrace_calls pairs 63 1 k' 1 path s' hk' c hc).2.2.1
    omega
  rcases recTrace_succ_cases pairs 63 0 k 0 [] s with e | ⟨s1, _, hpos, e⟩
  · rw [e]
    show topBudgets ([_] ++ _) = _
    rw [topBudgets_append, inner _ _ _ hk]
    rfl
  · rw [e]
    show topBudgets ([_] ++ (_ ++ _)) = _
    rw [topBudgets_append, topBudgets_append, inner _ _ _ hk, inner _ _ _ (by omega)]
    rfl

theorem topBudgets_budgetTrace (pairs : List (Nat × Nat)) (is : List Nat) :
    ∀ s, topBudgets (budgetTrace pairs is s).2 <+: is.map Int.ofNat := by
  induction is with
  | nil => intro s; rw [budgetTrace_nil]; exact List.nil_prefix
  | cons i is ih =>
    intro s
    have ht := topBudgets_traceRec pairs (i : Int) s (by omega)
    rcases budgetTrace_cases pairs i is s with e | ⟨s1, _, e⟩
    · rw [e, ht]
      exact ⟨is.map Int.ofNat, rfl⟩
    · rw [e]
      show topBudgets (_ ++ _) <+: _
      rw [topBudgets_append, ht]
      obtain ⟨t, ht'⟩ := ih s1
      exact ⟨t, by rw [List.map_cons, ← ht']; rfl⟩

/-- C19. Termination of the backtracking: for `n ≤ 64` and a budget
`k ≥ 0`, the call `rec(n, k)` returns the value of the total function `rec`
(which satisfies the source equations `rec_at_64` and `rec_below_64`);
every call made has its position between `n` and 64, a depth equal to the
number of positions passed, hence at most `64 - n`, and a budget between 0
and `k`; and the top-level calls of the search have the budgets
`1, 2, ...` of a starting piece of `1, ..., 10`. -/
theorem rec_terminates (pairs : List (Nat × Nat)) (n : Nat) (k : Int) (s : State)
    (hn : n ≤ 64) (hk : 0 ≤ k) :
    (traceRec pairs n k s).1 = rec pairs n k.toNat s ∧
    (∀ c ∈ (traceRec pairs n k s).2,
      n ≤ c.n ∧ c.n ≤ 64 ∧ c.depth = c.n - n ∧ c.depth ≤ 64 - n ∧ 0 ≤ c.k ∧ c.k ≤ k) ∧
    (searchTrace pairs).1 = search pairs ∧
    topBudgets (searchTrace pairs).2 <+: [1, 2, 3, 4, 5, 6, 7, 8, 9, 10] := by
  have hb : budgets.map Int.ofNat = [1, 2, 3, 4, 5, 6, 7, 8, 9, 10] := by decide
  refine ⟨?_, ?_, budgetTrace_result pairs _ _, ?_⟩
  rotate_left 2
  · rw [← hb]
    exact topBudgets_budgetTrace pairs budgets initState
  · have e : k = ((k.toNat : Nat) : Int) := (Int.toNat_of_nonneg hk).symm
    rw [e, Int.toNat_natCast]
    exact traceRec_result pairs n _ s hn
  · intro c hc
    obtain ⟨a1, a2, a3, a4, a5⟩ := recTrace_calls pairs (64 - n) n k 0 [] s hk c hc
    exact ⟨a1, by omega, by omega, by omega, a4, a5⟩

set_option maxRecDepth 100000 in
theorem rec_terminates_witness :
    (traceRec [(0, 7), (0, 8)] 62 1 initState).1 = rec [(0, 7), (0, 8)] 62 (1 : Int).toNat initState ∧
    (∀ c ∈ (traceRec [(0, 7), (0, 8)] 62 1 initState).2,
      62 ≤ c.n ∧ c.n ≤ 64 ∧ c.depth = c.n - 62 ∧ c.depth ≤ 64 - 62 ∧ 0 ≤ c.k ∧ c.k ≤ 1) ∧
    (searchTrace [(0, 7), (0, 8)]).1 = search [(0, 7), (0, 8)] ∧
    topBudgets (searchTrace [(0, 7), (0, 8)]).2 <+: [1, 2, 3, 4, 5, 6, 7, 8, 9, 10] :=
  rec_terminates [(0, 7), (0, 8)] 62 1 initState (by decide) (by decide)

/-! ## The number of trials -/

theorem trials_zero (k : Nat) : trials 0 k = if k = 0 then 0 else 1 := rfl

theorem trials_succ (d k : Nat) :
    trials (d + 1) k = trials d k + (if k = 0 then 0 else trials d (k - 1)) := rfl

theorem trials_eq_sum (d : Nat) : ∀ k, trials d k = ∑ j in Finset.range k, d.choose j := by
  induction d with
  | zero =>
    intro k
    rw [trials_zero]
    cases k with
    | zero => simp
    | succ k => rw [Finset.sum_range_succ']; simp
  | succ d ih =>
    intro k
    rw [trials_succ]
    cases k with
    | zero => simp [ih]
    | succ k =>
      rw [if_neg (by omega), ih, Nat.add_sub_cancel, ih, Finset.sum_range_succ' _ k,
        Finset.sum_range_succ' _ k]
      simp only [Nat.choose_succ_succ', Finset.sum_add_distrib, Nat.choose_zero_right]
      omega

theorem trials_64 :
    trials 64 1 = 1 ∧ trials 64 2 = 65 ∧ trials 64 3 = 2081 ∧ trials 64 4 = 43745 ∧
    trials 64 5 = 679121 ∧ trials 64 6 = 8303633 ∧ trials 64 7 = 83278001 ∧
    trials 64 8 = 704494193 ∧ trials 64 9 = 5130659561 := by
  simp only [trials_eq_sum, Finset.sum_range_succ, Finset.sum_range_zero,
    Nat.choose_eq_descFactorial_div_factorial]
  decide

/-! ## Tables on which every trial is rejected -/

theorem leaf_stuck {pairs pfx pre rest : List (Nat × Nat)} {A B mb : Nat}
    (hc : Clash pairs pfx A B pre mb rest) (hz : ZeroAt pfx 0) (k : Nat) (s : State)
    (hk : k ≠ 0) (hmax : s.cnt ≠ INT_MAX) (hs : StampOK s) :
    ∃ s', leaf pairs k s = some (false, s') ∧ StampOK s' ∧ s'.cnt = s.cnt + 1 := by
  obtain ⟨s', h⟩ := leaf_clash hc k s hk hmax hs
    (hashIndex_zero_of_zeroAt hz (lowZero_zero s.mul))
  refine ⟨s', h, (leaf_inv pairs k s false s' h).2 hs, ?_⟩
  unfold leaf at h
  rw [if_neg hk, if_neg hmax] at h
  exact (verifyLoop_inv pairs _ _ _ h).2.1

/-- On a table whose clashing pairs have index 0 under every candidate,
`rec(n, k)` returns 0 after `trials d k` trials, as long as `cnt` does not
reach `INT_MAX` before a trial. -/
theorem recAux_stuck {pairs pfx pre rest : List (Nat × Nat)} {A B mb : Nat}
    (hc : Clash pairs pfx A B pre mb rest) (hz : ZeroAt pfx 0) (d : Nat) :
    ∀ n k s, StampOK s → s.cnt + (trials d k : Int) ≤ INT_MAX →
      ∃ s', recAux pairs d n k s = some (false, s') ∧ StampOK s' ∧
        s'.cnt = s.cnt + (trials d k : Int) := by
  induction d with
  | zero =>
    intro n k s hs hb
    rw [recAux_zero, trials_zero]
    rw [trials_zero] at hb
    by_cases hk : k = 0
    · subst hk
      exact ⟨s, by simp [leaf], hs, by simp⟩
    · rw [if_neg hk] at hb ⊢
      obtain ⟨s', h1, h2, h3⟩ := leaf_stuck hc hz k s hk (by push_cast at hb; omega) hs
      exact ⟨s', h1, h2, by rw [h3]; simp⟩
  | succ d ih =>
    intro n k s hs hb
    rw [trials_succ] at hb ⊢
    push_cast at hb ⊢
    obtain ⟨s1, h1, hs1, hc1⟩ := ih (n + 1) k { s with mul := clearBit s.mul n } (fun g => hs g)
      (by show s.cnt + (trials d k : Int) ≤ INT_MAX; omega)
    have hc1' : s1.cnt = s.cnt + (trials d k : Int) := hc1
    rw [recAux_succ, h1]
    by_cases hk : k = 0
    · subst hk
      simp only [gt_iff_lt, lt_self_iff_false, if_false, if_true, Nat.cast_zero, add_zero]
      exact ⟨s1, rfl, hs1, hc1'⟩
    · rw [if_neg hk] at hb ⊢
      have hpos : k > 0 := Nat.pos_of_ne_zero hk
      simp only [if_pos hpos]
      obtain ⟨s2, h2, hs2, hc2⟩ := ih (n + 1) (k - 1) { s1 with mul := setBit s1.mul n }
        (fun g => hs1 g) (by show s1.cnt + (trials d (k - 1) : Int) ≤ INT_MAX; omega)
      have hc2' : s2.cnt = s1.cnt + (trials d (k - 1) : Int) := hc2
      exact ⟨s2, h2, hs2, by omega⟩

theorem recTrace_succ_none (pairs : List (Nat × Nat)) (d n : Nat) (k : Int) (dp : Nat)
    (path : List Nat) (s : State)
    (h : (recTrace pairs d (n + 1) k (dp + 1) path { s with mul := clearBit s.mul n }).1 = none) :
    recTrace pairs (d + 1) n k dp path s =
      (none, ⟨dp, n, k, path, s⟩ ::
        (recTrace pairs d (n + 1) k (dp + 1) path { s with mul := clearBit s.mul n }).2) := by
  rw [recTrace_succ, h]

theorem recTrace_succ_set (pairs : List (Nat × Nat)) (d n : Nat) (k : Int) (dp : Nat)
    (path : List Nat) (s s1 : State)
    (h : (recTrace pairs d (n + 1) k (dp + 1) path { s with mul := clearBit s.mul n }).1
      = some (false, s1)) (hk : k > 0) :
    recTrace pairs (d + 1) n k dp path s =
      ((recTrace pairs d (n + 1) (k - 1) (dp + 1) (n :: path)
          { s1 with mul := setBit s1.mul n }).1,
        ⟨dp, n, k, path, s⟩ ::
          ((recTrace pairs d (n + 1) k (dp + 1) path { s with mul := clearBit s.mul n }).2 ++
            (recTrace pairs d (n + 1) (k - 1) (dp + 1) (n :: path)
              { s1 with mul := setBit s1.mul n }).2)) := by
  rw [recTrace_succ, h]
  simp only [if_pos hk]

/-- The calls of the clear-branch are recorded in the call. -/
theorem recTrace_sub_clear (pairs : List (Nat × Nat)) (d n : Nat) (k : Int) (dp : Nat)
    (path : List Nat) (s : State) (c : Call)
    (h : c ∈ (recTrace pairs d (n + 1) k (dp + 1) path { s with mul := clearBit s.mul n }).2) :
    c ∈ (recTrace pairs (d + 1) n k dp path s).2 := by
  rcases recTrace_succ_cases pairs d n k dp path s with e | ⟨s1, _, _, e⟩
  · rw [e]; exact List.mem_cons_of_mem _ h
  · rw [e]; exact List.mem_cons_of_mem _ (List.mem_append_left _ h)

/-- When `cnt` would pass `INT_MAX` during the trials of `rec(n, k)`, the
run ends with undefined behaviour at a trial entered with `cnt = INT_MAX`,
which is the last call recorded. -/
theorem recTrace_overflow {pairs pfx pre rest : List (Nat × Nat)} {A B mb : Nat}
    (hc : Clash pairs pfx A B pre mb rest) (hz : ZeroAt pfx 0) (d : Nat) :
    ∀ n (k : Nat) dp path s, n + d = 64 → StampOK s → s.cnt ≤ INT_MAX →
      INT_MAX < s.cnt + (trials d k : Int) →
      (recTrace pairs d n (k : Int) dp path s).1 = none ∧
      ∃ l c, (recTrace pairs d n (k : Int) dp path s).2 = l ++ [c] ∧ c.isTrial = true ∧
        c.st.cnt = INT_MAX := by
  induction d with
  | zero =>
    intro n k dp path s hn hs hle hb
    rw [trials_zero] at hb
    have hk : k ≠ 0 := by
      intro h0
      rw [if_pos h0] at hb
      simp at hb
      omega
    rw [if_neg hk] at hb
    have hmax : s.cnt = INT_MAX := by push_cast at hb; omega
    rw [recTrace_zero]
    refine ⟨?_, [], _, rfl, ?_, hmax⟩
    · simp [hk, hmax]
    · have hn64 : n = 64 := by omega
      simp [Call.isTrial, hk, hn64]
  | succ d ih =>
    intro n k dp path s hn hs hle hb
    rw [trials_succ] at hb
    push_cast at hb
    by_cases h1 : INT_MAX < s.cnt + (trials d k : Int)
    · obtain ⟨r1, l, c, e, ht, hcnt⟩ := ih (n + 1) k (dp + 1) path
        { s with mul := clearBit s.mul n } (by omega) (fun g => hs g) hle h1
      rw [recTrace_succ_none pairs d n k dp path s r1]
      exact ⟨rfl, _ :: l, c, by rw [e]; rfl, ht, hcnt⟩
    · obtain ⟨s1, a1, hs1, hc1⟩ := recAux_stuck hc hz d (n + 1) k
        { s with mul := clearBit s.mul n } (fun g => hs g)
        (by show s.cnt + (trials d k : Int) ≤ INT_MAX; omega)
      have hc1' : s1.cnt = s.cnt + (trials d k : Int) := hc1
      have hk : k ≠ 0 := by
        intro h0
        rw [if_pos h0] at hb
        simp at hb
        omega
      rw [if_neg hk] at hb
      have r1 : (recTrace pairs d (n + 1) (k : Int) (dp + 1) path
          { s with mul := clearBit s.mul n }).1 = some (false, s1) := by
        rw [recTrace_result]; exact a1
      have e2 : ((k : Int) - 1) = ((k - 1 : Nat) : Int) := by omega
      obtain ⟨r2, l, c, e, ht, hcnt⟩ := ih (n + 1) (k - 1) (dp + 1) (n :: path)
        { s1 with mul := setBit s1.mul n } (by omega) (fun g => hs1 g)
        (by show s1.cnt ≤ INT_MAX; omega)
        (by show INT_MAX < s1.cnt + (trials d (k - 1) : Int); omega)
      rw [recTrace_succ_set pairs d n k dp path s s1 r1 (by omega), e2]
      refine ⟨r2, ⟨dp, n, k, path, s⟩ :: ((recTrace pairs d (n + 1) (k : Int) (dp + 1) path
        { s with mul := clearBit s.mul n }).2 ++ l), c, ?_, ht, hcnt⟩
      show _ :: (_ ++ _) = _
      rw [e]
      simp

theorem budgetTrace_stuck_step {pairs pfx pre rest : List (Nat × Nat)} {A B mb : Nat}
    (hc : Clash pairs pfx A B pre mb rest) (hz : ZeroAt pfx 0) (i : Nat) (is : List Nat)
    (s : State) (hs : StampOK s) (hb : s.cnt + (trials 64 i : Int) ≤ INT_MAX) :
    ∃ s1, StampOK s1 ∧ s1.cnt = s.cnt + (trials 64 i : Int) ∧
      (traceRec pairs 0 (i : Int) s).1 = some (false, s1) ∧
      budgetTrace pairs (i :: is) s =
        ((budgetTrace pairs is s1).1,
          (traceRec pairs 0 (i : Int) s).2 ++ (budgetTrace pairs is s1).2) := by
  obtain ⟨s1, h1, hs1, hc1⟩ := recAux_stuck hc hz 64 0 i s hs hb
  have h : (traceRec pairs 0 (i : Int) s).1 = some (false, s1) := by
    rw [traceRec_result pairs 0 i s (by omega), rec_zero_eq]
    exact h1
  exact ⟨s1, hs1, hc1, h, by rw [budgetTrace_cons, h]⟩

/-- The budgets `is` all end with `rec` returning 0 when their trials do
not take `cnt` beyond `INT_MAX`. -/
theorem budgetTrace_stuck_run {pairs pfx pre rest : List (Nat × Nat)} {A B mb : Nat}
    (hc : Clash pairs pfx A B pre mb rest) (hz : ZeroAt pfx 0) (is : List Nat) :
    ∀ (js : List Nat) (s : State), StampOK s →
      s.cnt + (((is.map (trials 64)).sum : Nat) : Int) ≤ INT_MAX →
      ∃ s1 l, StampOK s1 ∧ s1.cnt = s.cnt + (((is.map (trials 64)).sum : Nat) : Int) ∧
        budgetTrace pairs (is ++ js) s =
          ((budgetTrace pairs js s1).1, l ++ (budgetTrace pairs js s1).2) ∧
        topBudgets l = is.map Int.ofNat := by
  induction is with
  | nil =>
    intro js s hs _
    exact ⟨s, [], hs, by simp, rfl, rfl⟩
  | cons i is ih =>
    intro js s hs hb
    simp only [List.map_cons, List.sum_cons, Nat.cast_add] at hb ⊢
    obtain ⟨s1, hs1, hc1, _, e1⟩ := budgetTrace_stuck_step hc hz i (is ++ js) s hs (by omega)
    obtain ⟨s2, l, hs2, hc2, e2, ht⟩ := ih js s1 hs1 (by omega)
    refine ⟨s2, (traceRec pairs 0 (i : Int) s).2 ++ l, hs2, by omega, ?_, ?_⟩
    · rw [List.cons_append, e1, e2, List.append_assoc]
    · rw [topBudgets_append, topBudgets_traceRec pairs (i : Int) s (by omega), ht]
      rfl

theorem budgetTrace_overflow_step {pairs pfx pre rest : List (Nat × Nat)} {A B mb : Nat}
    (hc : Clash pairs pfx A B pre mb rest) (hz : ZeroAt pfx 0) (i : Nat) (is : List Nat)
    (s : State) (hs : StampOK s) (hle : s.cnt ≤ INT_MAX)
    (hb : INT_MAX < s.cnt + (trials 64 i : Int)) :
    (budgetTrace pairs (i :: is) s).1 = none ∧
    ∃ l c, (budgetTrace pairs (i :: is) s).2 = l ++ [c] ∧ c.isTrial = true ∧
      c.st.cnt = INT_MAX ∧ topBudgets (l ++ [c]) = [(i : Int)] := by
  obtain ⟨h, l, c, e, ht, hcnt⟩ := recTrace_overflow hc hz 64 0 i 0 [] s rfl hs hle hb
  have h' : (traceRec pairs 0 (i : Int) s).1 = none := h
  have e' : (traceRec pairs 0 (i : Int) s).2 = l ++ [c] := e
  rw [budgetTrace_cons, h']
  refine ⟨rfl, l, c, e', ht, hcnt, ?_⟩
  rw [← e']
  exact topBudgets_traceRec pairs (i : Int) s (by omega)

set_option maxRecDepth 100000 in
/-- The table of square (0,0) starts with the empty occupancy and the
occupancy of square (0,1) alone; both have index 0 under every candidate
and their attack sets differ. -/
theorem get_table_0_0_stuck :
    ∃ pfx A B pre mb rest, Clash (get_table 0 0) pfx A B pre mb rest ∧ ZeroAt pfx 0 := by
  have e := get_table_cons2 0 0 4094 (by decide)
  have hcl := clash_of_cons2 (tableEntry 0 0 (rel 0 0) 0) (tableEntry 0 0 (rel 0 0) 1)
    ((List.range' 2 4094).map (tableEntry 0 0 (rel 0 0))) (by decide)
  rw [← e] at hcl
  refine ⟨_, _, _, _, _, _, hcl, ?_⟩
  intro p hp
  simp only [List.mem_cons, List.mem_singleton, List.not_mem_nil, or_false] at hp
  rcases hp with rfl | rfl <;> decide

/-- On a table on which every trial is rejected, a call with budget left
goes on, after its first leaf, to the leaf that sets bit 63 alone. -/
theorem recTrace_second_leaf {pairs pfx pre rest : List (Nat × Nat)} {A B mb : Nat}
    (hc : Clash pairs pfx A B pre mb rest) (hz : ZeroAt pfx 0) (d : Nat) :
    ∀ n (k : Nat) dp path s, n + d = 63 → k ≠ 0 → StampOK s → s.cnt ≠ INT_MAX →
      ∃ c ∈ (recTrace pairs (d + 1) n (k : Int) dp path s).2,
        c.n = 64 ∧ c.k = (k : Int) - 1 ∧ c.path = 63 :: path := by
  induction d with
  | zero =>
    intro n k dp path s hn hk hs hmax
    have hn63 : n = 63 := by omega
    subst hn63
    obtain ⟨s1, h1, _, _⟩ := leaf_stuck hc hz k { s with mul := clearBit s.mul 63 } hk hmax
      (fun g => hs g)
    have r1 : (recTrace pairs 0 (63 + 1) (k : Int) (dp + 1) path
        { s with mul := clearBit s.mul 63 }).1 = some (false, s1) := by
      rw [recTrace_result, recAux_zero]; exact h1
    rw [recTrace_succ_set pairs 0 63 k dp path s s1 r1 (by omega)]
    refine ⟨⟨dp + 1, 64, (k : Int) - 1, 63 :: path, { s1 with mul := setBit s1.mul 63 }⟩, ?_,
      rfl, rfl, rfl⟩
    apply List.mem_cons_of_mem
    apply List.mem_append_right
    rw [recTrace_zero]
    exact List.mem_singleton_self _
  | succ d ih =>
    intro n k dp path s hn hk hs hmax
    obtain ⟨c, hc', h1, h2, h3⟩ := ih (n + 1) k (dp + 1) path
      { s with mul := clearBit s.mul n } (by omega) hk (fun g => hs g) hmax
    exact ⟨c, recTrace_sub_clear pairs (d + 1) n k dp path s c hc', h1, h2, h3⟩

theorem isTrial_iff (c : Call) : c.isTrial = true ↔ c.n = 64 ∧ c.k ≠ 0 := by
  simp [Call.isTrial]

/-! ## The candidate at a leaf -/

theorem popcount_eq_length (mul : Nat) (chosen : List Nat) (hnd : chosen.Nodup)
    (h : ∀ m, m ∈ chosen ↔ m < 64 ∧ mul.testBit m = true) : popcount mul = chosen.length := by
  unfold popcount
  apply List.Perm.length_eq
  rw [List.perm_ext_iff_of_nodup ((List.nodup_range 64).filter _) hnd]
  intro m
  rw [List.mem_filter, List.mem_range, h]

/-- The leaves recorded below a call `rec(n, k)`: the path grows by the
positions at which the set-branch was taken, the budget drops by their
number, the bits of `mul` below `n` are those at the call and the bits from
`n` on are exactly the positions taken. -/
theorem recTrace_leaves (pairs : List (Nat × Nat)) (d : Nat) :
    ∀ n (k : Nat) dp path s, n + d = 64 → s.mul < 2 ^ 64 →
      ∀ c ∈ (recTrace pairs d n (k : Int) dp path s).2, c.n = 64 →
        ∃ chosen : List Nat, c.path = chosen ++ path ∧ chosen.Nodup ∧
          (∀ m ∈ chosen, n ≤ m ∧ m < 64) ∧ c.k + chosen.length = k ∧
          (∀ m, m < n → c.st.mul.testBit m = s.mul.testBit m) ∧
          (∀ m, n ≤ m → m < 64 → (c.st.mul.testBit m = true ↔ m ∈ chosen)) ∧
          c.st.mul < 2 ^ 64 := by
  induction d with
  | zero =>
    intro n k dp path s hn hlt c hc _
    rw [recTrace_zero] at hc
    simp only [List.mem_singleton] at hc
    subst hc
    exact ⟨[], rfl, List.nodup_nil, by simp, by simp, fun _ _ => rfl,
      fun m h1 h2 => by omega, hlt⟩
  | succ d ih =>
    intro n k dp path s hn hlt c hc hc64
    have hn64 : n < 64 := by omega
    have hclr : ∀ m, m < n → (clearBit s.mul n).testBit m = s.mul.testBit m := by
      intro m hm
      rw [clearBit_testBit _ _ _ hn64]
      have a1 : m < 64 := by omega
      have a2 : m ≠ n := by omega
      simp [a1, a2]
    have hclrn : (clearBit s.mul n).testBit n = false := by
      rw [clearBit_testBit _ _ _ hn64]
      simp
    have first : ∀ c ∈ (recTrace pairs d (n + 1) (k : Int) (dp + 1) path
        { s with mul := clearBit s.mul n }).2, c.n = 64 →
        ∃ chosen : List Nat, c.path = chosen ++ path ∧ chosen.Nodup ∧
          (∀ m ∈ chosen, n ≤ m ∧ m < 64) ∧ c.k + chosen.length = k ∧
          (∀ m, m < n → c.st.mul.testBit m = s.mul.testBit m) ∧
          (∀ m, n ≤ m → m < 64 → (c.st.mul.testBit m = true ↔ m ∈ chosen)) ∧
          c.st.mul < 2 ^ 64 := by
      intro c hc hc64
      obtain ⟨ch, p1, p2, p3, p4, p5, p6, p7⟩ :=
        ih (n + 1) k (dp + 1) path { s with mul := clearBit s.mul n } (by omega)
          (clearBit_lt _ _ hn64) c hc hc64
      refine ⟨ch, p1, p2, fun m hm => ⟨by have := (p3 m hm).1; omega, (p3 m hm).2⟩, p4, ?_, ?_, p7⟩
      · intro m hm
        rw [p5 m (by omega)]
        exact hclr m hm
      · intro m h1 h2
        rcases Nat.eq_or_lt_of_le h1 with e | hlt'
        · subst e
          rw [p5 n (by omega)]
          show (clearBit s.mul n).testBit n = true ↔ _
          rw [hclrn]
          constructor
          · intro h; cases h
          · intro h
            have := (p3 n h).1
            omega
        · exact p6 m (by omega) h2
    rcases recTrace_succ_cases pairs d n k dp path s with e | ⟨s1, hr1, hpos, e⟩
    · rw [e] at hc
      rcases List.mem_cons.mp hc with rfl | hc
      · simp only at hc64
        omega
      · exact first c hc hc64
    · rw [e] at hc
      rcases List.mem_cons.mp hc with rfl | hc
      · simp only at hc64
        omega
      · rcases List.mem_append.mp hc with hc | hc
        · exact first c hc hc64
        · have hkpos : 0 < k := by exact_mod_cast hpos
          rw [recTrace_result] at hr1
          obtain ⟨_, i2, i3⟩ := recAux_inv pairs d _ _ _ _ _ (by omega) hr1
          have hs1 : s1.mul < 2 ^ 64 := i3 (clearBit_lt _ _ hn64)
          have e2 : ((k : Int) - 1) = ((k - 1 : Nat) : Int) := by omega
          rw [e2] at hc
          obtain ⟨ch, p1, p2, p3, p4, p5, p6, p7⟩ :=
            ih (n + 1) (k - 1) (dp + 1) (n :: path) { s1 with mul := setBit s1.mul n }
              (by omega) (setBit_lt _ _ hn64 hs1) c hc hc64
          have hnot : n ∉ ch := fun h => by
            have := (p3 n h).1
            omega
          refine ⟨ch ++ [n], by rw [p1]; simp, ?_, ?_, ?_, ?_, ?_, p7⟩
          · rw [List.nodup_append]
            refine ⟨p2, List.nodup_singleton n, ?_⟩
            intro a ha hb
            simp only [List.mem_singleton] at hb
            subst hb
            exact hnot ha
          · intro m hm
            rcases List.mem_append.mp hm with h | h
            · exact ⟨by have := (p3 m h).1; omega, (p3 m h).2⟩
            · simp only [List.mem_singleton] at h
              subst h
              exact ⟨le_rfl, hn64⟩
          · rw [List.length_append, List.length_singleton]
            push_cast
            omega
          · intro m hm
            rw [p5 m (by omega)]
            show (setBit s1.mul n).testBit m = _
            rw [setBit_testBit, i2 m (by omega)]
            show ((clearBit s.mul n).testBit m || _) = _
            rw [hclr m hm]
            have : n ≠ m := by omega
            simp [this]
          · intro m h1 h2
            rcases Nat.eq_or_lt_of_le h1 with e' | hlt'
            · subst e'
              rw [p5 n (by omega)]
              show (setBit s1.mul n).testBit n = true ↔ _
              rw [setBit_testBit]
              simp
            · rw [p6 m (by omega) h2]
              have : m ≠ n := by omega
              simp [this]

/-- The bits of the candidate at a leaf of `rec(0, i)` are the positions of
its path. -/
theorem leaf_bits (pairs : List (Nat × Nat)) (i : Nat) (s : State) (hlt : s.mul < 2 ^ 64)
    (c : Call) (hc : c ∈ (traceRec pairs 0 (i : Int) s).2) (hc64 : c.n = 64) :
    ∀ m, c.st.mul.testBit m = true ↔ m ∈ c.path := by
  obtain ⟨ch, p1, _, p3, _, _, p6, p7⟩ :=
    recTrace_leaves pairs 64 0 i 0 [] s rfl hlt c hc hc64
  rw [List.append_nil] at p1
  subst p1
  intro m
  by_cases hm : m < 64
  · exact p6 m (Nat.zero_le _) hm
  · have hp : 2 ^ 64 ≤ 2 ^ m := Nat.pow_le_pow_right (by norm_num) (by omega)
    rw [Nat.testBit_lt_two_pow (lt_of_lt_of_le p7 hp)]
    constructor
    · intro h; cases h
    · intro h
      have := (p3 m h).2
      omega

theorem leaf_single_bit (pairs : List (Nat × Nat)) (i : Nat) (s : State) (hlt : s.mul < 2 ^ 64)
    (c : Call) (hc : c ∈ (traceRec pairs 0 (i : Int) s).2) (hc64 : c.n = 64) (j : Nat)
    (hp : c.path = [j]) : c.st.mul = 2 ^ j := by
  apply Nat.eq_of_testBit_eq
  intro m
  have h := leaf_bits pairs i s hlt c hc hc64 m
  rw [hp, List.mem_singleton] at h
  rw [Nat.testBit_two_pow]
  by_cases e : j = m
  · subst e
    simpa using h
  · have : ¬ m = j := fun x => e x.symm
    simp only [this, iff_false, Bool.not_eq_true] at h
    simp [h, e]

/-- C17. Leaf candidate equals the decision path: for every table and
budget `i`, every candidate that `rec(0, i)` submits to verification has
bit `m` set exactly when the path took the set-branch at position `m`, and
its popcount is `i` minus the budget remaining at the leaf. -/
theorem leaf_candidate_is_path (pairs : List (Nat × Nat)) (i : Nat) (s : State)
    (hlt : s.mul < 2 ^ 64) :
    ∀ c ∈ (traceRec pairs 0 (i : Int) s).2, c.isTrial = true →
      (∀ m, c.st.mul.testBit m = true ↔ m ∈ c.path) ∧
      (popcount c.st.mul : Int) = (i : Int) - c.k := by
  intro c hc ht
  have hc64 : c.n = 64 := by
    unfold Call.isTrial at ht
    simp only [Bool.and_eq_true, decide_eq_true_eq] at ht
    exact ht.1
  obtain ⟨ch, p1, p2, p3, p4, _, p6, p7⟩ :=
    recTrace_leaves pairs 64 0 i 0 [] s rfl hlt c hc hc64
  rw [List.append_nil] at p1
  subst p1
  have hbits : ∀ m, c.st.mul.testBit m = true ↔ m ∈ c.path := by
    intro m
    by_cases hm : m < 64
    · exact p6 m (Nat.zero_le _) hm
    · have hp : 2 ^ 64 ≤ 2 ^ m := Nat.pow_le_pow_right (by norm_num) (by omega)
      rw [Nat.testBit_lt_two_pow (lt_of_lt_of_le p7 hp)]
      constructor
      · intro h; cases h
      · intro h
        have := (p3 m h).2
        omega
  refine ⟨hbits, ?_⟩
  rw [popcount_eq_length c.st.mul c.path p2]
  · omega
  · intro m
    rw [← hbits m]
    constructor
    · intro h
      exact ⟨(p3 m ((hbits m).mp h)).2, h⟩
    · exact fun h => h.2

theorem leaf_candidate_is_path_witness :
    ∃ c ∈ (traceRec [(0, 7), (0, 8)] 0 ((2 : Nat) : Int) { initState with mul := 5 }).2,
      c.isTrial = true ∧ c.path = [63] ∧ c.k = 1 ∧ c.st.mul = 2 ^ 63 ∧
      (∀ m, c.st.mul.testBit m = true ↔ m ∈ c.path) ∧
      (popcount c.st.mul : Int) = ((2 : Nat) : Int) - c.k := by
  have hc := clash_of_cons2 (0, 7) (0, 8) [] (by decide)
  have hz : ZeroAt [(0, 7), (0, 8)] 0 := by
    intro p hp
    simp only [List.mem_cons, List.mem_singleton, List.not_mem_nil, or_false] at hp
    rcases hp with rfl | rfl <;> decide
  have hs : StampOK { initState with mul := 5 } := fun g => by
    show (-1 : Int) ≤ 0
    decide
  have hlt : ({ initState with mul := 5 } : State).mul < 2 ^ 64 := by decide
  obtain ⟨c, hm, hn, hk, hp⟩ := recTrace_second_leaf hc hz 63 0 2 0 []
    { initState with mul := 5 } rfl (by norm_num) hs (by decide)
  have hm' : c ∈ (traceRec [(0, 7), (0, 8)] 0 ((2 : Nat) : Int)
      { initState with mul := 5 }).2 := hm
  have hk' : c.k = 1 := by rw [hk]; norm_num
  have ht : c.isTrial = true := by rw [isTrial_iff]; exact ⟨hn, by rw [hk']; norm_num⟩
  exact ⟨c, hm', ht, hp, hk', leaf_single_bit _ 2 _ hlt c hm' hn 63 hp,
    leaf_candidate_is_path _ 2 { initState with mul := 5 } hlt c hm' ht⟩

/-! ## The stamp invariant -/

theorem stamp_range (s : State) (h : Int) (a : Nat) (hs : StampRange s) (hc : 1 ≤ s.cnt) :
    StampRange (stamp s h a) := by
  intro g
  rw [stamp_cnt]
  unfold stamp
  split_ifs with c
  · by_cases e : g = h
    · subst e
      right
      simp only [Function.update_same]
      exact ⟨hc, le_rfl⟩
    · simp only [Function.update_noteq e]
      exact hs g
  · exact hs g

theorem verifyLoop_range (l : List (Nat × Nat)) :
    ∀ s b s', verifyLoop l s = some (b, s') → StampRange s → 1 ≤ s.cnt → StampRange s' := by
  induction l with
  | nil =>
    intro s b s' h hs _
    simp only [verifyLoop, Option.some.injEq, Prod.mk.injEq] at h
    rw [← h.2]; exact hs
  | cons v rest ih =>
    intro s b s' h hs hc
    simp only [verifyLoop] at h
    have h1 := stamp_range s (hashIndex v.1 s.mul) v.2 hs hc
    split_ifs at h with c1 c2
    · simp only [Option.some.injEq, Prod.mk.injEq] at h
      rw [← h.2]; exact h1
    · exact ih _ _ _ h h1 (by rw [stamp_cnt]; exact hc)

theorem numTrials_nil : numTrials [] = 0 := rfl

theorem numTrials_cons (c : Call) (l : List Call) :
    numTrials (c :: l) = (if c.isTrial then 1 else 0) + numTrials l := by
  unfold numTrials
  rw [List.filter_cons]
  split_ifs <;> simp [Nat.add_comm]

theorem numTrials_append (l1 l2 : List Call) :
    numTrials (l1 ++ l2) = numTrials l1 + numTrials l2 := by
  simp [numTrials]

theorem counted_append (l1 : List Call) :
    ∀ c0 l2, Counted c0 (l1 ++ l2) ↔ Counted c0 l1 ∧ Counted (c0 + numTrials l1) l2 := by
  induction l1 with
  | nil => intro c0 l2; simp [Counted, numTrials_nil]
  | cons c l1 ih =>
    intro c0 l2
    have e : c0 + ((numTrials (c :: l1) : Nat) : Int)
        = (c0 + if c.isTrial then 1 else 0) + (numTrials l1 : Int) := by
      rw [numTrials_cons]
      split_ifs <;> push_cast <;> omega
    show (c.st.cnt = c0 ∧ Counted (c0 + if c.isTrial then 1 else 0) (l1 ++ l2)) ↔
      (c.st.cnt = c0 ∧ Counted (c0 + if c.isTrial then 1 else 0) l1) ∧
        Counted (c0 + ((numTrials (c :: l1) : Nat) : Int)) l2
    rw [ih, e]
    tauto

theorem counted_split (c0 : Int) (l1 : List Call) (c : Call) (l2 : List Call)
    (h : Counted c0 (l1 ++ c :: l2)) : c.st.cnt = c0 + numTrials l1 :=
  ((counted_append l1 c0 (c :: l2)).mp h).2.1

/-- The recorded calls of `rec(n, k)`: each is entered with the stamp
invariant and with `cnt` counting the trials before it, and the state
returned satisfies the invariant with `cnt` counting all trials. -/
theorem recTrace_counted (pairs : List (Nat × Nat)) (d : Nat) :
    ∀ n (k : Int) dp path s, n + d = 64 → StampRange s → 0 ≤ s.cnt →
      Counted s.cnt (recTrace pairs d n k dp path s).2 ∧
      (∀ c ∈ (recTrace pairs d n k dp path s).2, StampRange c.st ∧ 0 ≤ c.st.cnt) ∧
      (∀ b s', (recTrace pairs d n k dp path s).1 = some (b, s') →
        StampRange s' ∧ s'.cnt = s.cnt + numTrials (recTrace pairs d n k dp path s).2) := by
  induction d with
  | zero =>
    intro n k dp path s hn hs hc
    rw [recTrace_zero]
    refine ⟨⟨rfl, trivial⟩, ?_, ?_⟩
    · intro c hc'
      simp only [List.mem_singleton] at hc'
      subst hc'
      exact ⟨hs, hc⟩
    · intro b s' h
      simp only at h
      have hn64 : n = 64 := by omega
      rw [numTrials_cons, numTrials_nil]
      by_cases hk : k = 0
      · rw [if_pos hk] at h
        simp only [Option.some.injEq, Prod.mk.injEq] at h
        rw [← h.2]
        have : (⟨dp, n, k, path, s⟩ : Call).isTrial = false := by simp [Call.isTrial, hk]
        rw [this]
        exact ⟨hs, by simp⟩
      · rw [if_neg hk] at h
        split_ifs at h with hmax
        have hplus : StampRange { s with cnt := s.cnt + 1 } := by
          intro g
          rcases hs g with e | ⟨e1, e2⟩
          · exact Or.inl e
          · exact Or.inr ⟨e1, by show s.vis g ≤ s.cnt + 1; omega⟩
        have hr := verifyLoop_range pairs _ _ _ h hplus (by show 1 ≤ s.cnt + 1; omega)
        have hcnt := (verifyLoop_inv pairs _ _ _ h).2.1
        have : (⟨dp, n, k, path, s⟩ : Call).isTrial = true := by simp [Call.isTrial, hk, hn64]
        rw [this]
        refine ⟨hr, ?_⟩
        rw [hcnt]
        simp
  | succ d ih =>
    intro n k dp path s hn hs hc
    have hnt : (⟨dp, n, k, path, s⟩ : Call).isTrial = false := by
      have : n ≠ 64 := by omega
      simp [Call.isTrial, this]
    obtain ⟨a1, a2, a3⟩ := ih (n + 1) k (dp + 1) path { s with mul := clearBit s.mul n }
      (by omega) hs hc
    rcases recTrace_succ_cases pairs d n k dp path s with e | ⟨s1, hr1, hpos, e⟩
    · rw [e]
      refine ⟨⟨rfl, ?_⟩, ?_, ?_⟩
      · rw [hnt]
        simp only [Bool.false_eq_true, if_false, add_zero]
        exact a1
      · intro c hc'
        rcases List.mem_cons.mp hc' with rfl | hc'
        · exact ⟨hs, hc⟩
        · exact a2 c hc'
      · intro b s' h
        obtain ⟨b1, b2⟩ := a3 b s' h
        refine ⟨b1, ?_⟩
        have b2' : s'.cnt = s.cnt + (numTrials
            (recTrace pairs d (n + 1) k (dp + 1) path { s with mul := clearBit s.mul n }).2 : Int) :=
          b2
        rw [numTrials_cons, hnt, b2']
        simp
    · obtain ⟨b1, b2⟩ := a3 false s1 hr1
      have b2' : s1.cnt = s.cnt + (numTrials
          (recTrace pairs d (n + 1) k (dp + 1) path { s with mul := clearBit s.mul n }).2 : Int) :=
        b2
      have hc1 : 0 ≤ s1.cnt := by omega
      obtain ⟨c1, c2, c3⟩ := ih (n + 1) (k - 1) (dp + 1) (n :: path)
        { s1 with mul := setBit s1.mul n } (by omega) b1 hc1
      rw [e]
      refine ⟨⟨rfl, ?_⟩, ?_, ?_⟩
      · rw [hnt, counted_append]
        simp only [Bool.false_eq_true, if_false, add_zero]
        refine ⟨a1, ?_⟩
        rw [← b2']
        exact c1
      · intro c hc'
        rcases List.mem_cons.mp hc' with rfl | hc'
        · exact ⟨hs, hc⟩
        · rcases List.mem_append.mp hc' with hc' | hc'
          · exact a2 c hc'
          · exact c2 c hc'
      · intro b s' h
        obtain ⟨d1, d2⟩ := c3 b s' h
        refine ⟨d1, ?_⟩
        rw [numTrials_cons, hnt, numTrials_append]
        have d2' : s'.cnt = s1.cnt + (numTrials
            (recTrace pairs d (n + 1) (k - 1) (dp + 1) (n :: path)
              { s1 with mul := setBit s1.mul n }).2 : Int) := d2
        rw [d2', b2']
        push_cast
        omega

theorem budgetTrace_counted (pairs : List (Nat × Nat)) (is : List Nat) :
    ∀ s, StampRange s → 0 ≤ s.cnt →
      Counted s.cnt (budgetTrace pairs is s).2 ∧
      (∀ c ∈ (budgetTrace pairs is s).2, StampRange c.st ∧ 0 ≤ c.st.cnt) := by
  induction is with
  | nil => intro s _ _; rw [budgetTrace_nil]; exact ⟨trivial, by simp⟩
  | cons i is ih =>
    intro s hs hc
    obtain ⟨a1, a2, a3⟩ := recTrace_counted pairs 64 0 (i : Int) 0 [] s rfl hs hc
    rcases budgetTrace_cases pairs i is s with e | ⟨s1, hr1, e⟩
    · rw [e]
      exact ⟨a1, a2⟩
    · obtain ⟨b1, b2⟩ := a3 false s1 hr1
      have b2' : s1.cnt = s.cnt + (numTrials (recTrace pairs 64 0 (i : Int) 0 [] s).2 : Int) := b2
      obtain ⟨c1, c2⟩ := ih s1 b1 (by omega)
      rw [e]
      refine ⟨(counted_append _ _ _).mpr ⟨a1, ?_⟩, ?_⟩
      · show Counted (s.cnt + (numTrials (recTrace pairs 64 0 (i : Int) 0 [] s).2 : Int)) _
        rw [← b2']
        exact c1
      · intro c hc'
        rcases List.mem_append.mp hc' with hc' | hc'
        · exact a2 c hc'
        · exact c2 c hc'

theorem searchTrace_eq (pairs : List (Nat × Nat)) :
    searchTrace pairs = budgetTrace pairs budgets initState := rfl

set_option maxRecDepth 100000 in
/-- Stamp invariant up to the first overflow of `cnt`: the stamp array
starts filled with `-1`; every call of `rec` recorded during the search
(the record ends at a trial entered with `cnt = INT_MAX`) is entered in a
state whose `cnt` is the number of trials started before it and in which
every slot of `vis` holds `-1` or a generation between 1 and `cnt`, so that
no slot carries the generation `cnt + 1` of the next trial; and each
stamping step of a trial keeps the invariant. -/
theorem stamp_invariant_until_overflow (pairs : List (Nat × Nat)) :
    (∀ g, initState.vis g = -1) ∧
    (∀ l1 c l2, (searchTrace pairs).2 = l1 ++ c :: l2 →
      c.st.cnt = (numTrials l1 : Int) ∧
      (∀ g, c.st.vis g = -1 ∨ (1 ≤ c.st.vis g ∧ c.st.vis g ≤ c.st.cnt)) ∧
      (∀ g, c.st.vis g ≠ c.st.cnt + 1)) ∧
    (∀ s h a, 1 ≤ s.cnt →
      (∀ g, s.vis g = -1 ∨ (1 ≤ s.vis g ∧ s.vis g ≤ s.cnt)) →
      ∀ g, (stamp s h a).vis g = -1 ∨
        (1 ≤ (stamp s h a).vis g ∧ (stamp s h a).vis g ≤ (stamp s h a).cnt)) := by
  have h0 : StampRange initState := fun g => Or.inl rfl
  obtain ⟨a1, a2⟩ := budgetTrace_counted pairs budgets initState h0 (le_refl (0 : Int))
  refine ⟨fun g => rfl, ?_, fun s h a hc hs => stamp_range s h a hs hc⟩
  intro l1 c l2 e
  rw [searchTrace_eq] at e
  have hmem : c ∈ (budgetTrace pairs budgets initState).2 := by rw [e]; simp
  obtain ⟨b1, b2⟩ := a2 c hmem
  rw [e] at a1
  have hcnt : c.st.cnt = (numTrials l1 : Int) := by
    have := counted_split initState.cnt l1 c l2 a1
    rw [this]
    show (0 : Int) + _ = _
    simp
  refine ⟨hcnt, b1, ?_⟩
  intro g
  rcases b1 g with h | ⟨_, h⟩
  · rw [h]; omega
  · omega

set_option maxRecDepth 100000 in
theorem search_overflow {pairs pfx pre rest : List (Nat × Nat)} {A B mb : Nat}
    (hc : Clash pairs pfx A B pre mb rest) (hz : ZeroAt pfx 0) :
    (searchTrace pairs).1 = none ∧
    ∃ l c, (searchTrace pairs).2 = l ++ [c] ∧ c.isTrial = true ∧ c.st.cnt = INT_MAX ∧
      topBudgets (l ++ [c]) = [1, 2, 3, 4, 5, 6, 7, 8, 9] ∧ numTrials (l ++ [c]) = 2 ^ 31 := by
  obtain ⟨t1, t2, t3, t4, t5, t6, t7, t8, t9⟩ := trials_64
  have hsum : (([1, 2, 3, 4, 5, 6, 7, 8] : List Nat).map (trials 64)).sum = 796800840 := by
    simp only [List.map_cons, List.map_nil, List.sum_cons, List.sum_nil, t1, t2, t3, t4, t5, t6,
      t7, t8]
    rfl
  have hb : budgets = [1, 2, 3, 4, 5, 6, 7, 8] ++ [9, 10] := by decide
  obtain ⟨s1, l, hs1, hc1, e1, ht⟩ := budgetTrace_stuck_run hc hz [1, 2, 3, 4, 5, 6, 7, 8]
    [9, 10] initState initState_ok.1 (by rw [hsum]; decide)
  rw [hsum] at hc1
  have hc1' : s1.cnt = 796800840 := by
    rw [hc1]
    show (0 : Int) + _ = _
    norm_num
  obtain ⟨r, l9, c, e9, hct, hcc, ht9⟩ := budgetTrace_overflow_step hc hz 9 [10] s1 hs1
    (by rw [hc1']; decide) (by rw [hc1', t9]; decide)
  have e : searchTrace pairs = (none, (l ++ l9) ++ [c]) := by
    rw [searchTrace_eq, hb, e1]
    rw [r, e9, List.append_assoc]
  have h0 : StampRange initState := fun g => Or.inl rfl
  have hcount := (budgetTrace_counted pairs budgets initState h0 (le_refl (0 : Int))).1
  rw [← searchTrace_eq, e] at hcount
  have hn := counted_split initState.cnt (l ++ l9) c [] hcount
  have hn' : (numTrials (l ++ l9) : Int) = INT_MAX := by
    rw [← hcc, hn]
    show _ = (0 : Int) + _
    simp
  rw [e]
  refine ⟨rfl, l ++ l9, c, rfl, hct, hcc, ?_, ?_⟩
  · rw [List.append_assoc, topBudgets_append, ht, ht9]
    rfl
  · rw [numTrials_append, numTrials_cons, numTrials_nil, hct]
    have : (INT_MAX : Int) = 2 ^ 31 - 1 := rfl
    rw [this] at hn'
    simp only [if_true]
    omega

set_option maxRecDepth 100000 in
/-- C18. The generation counter overflows for the target square (0,0):
every trial of the search over the table of (0,0) is rejected without a
fault, the budgets 1 to 8 end, and during budget 9 a trial is entered with
`cnt = INT_MAX`, where the statement `cnt++` of line 147 overflows the type
`int`.  That trial is the `2^31`-th one of the run, a number which is no
value of `cnt`: from there on `cnt` is not the number of trials started, and
`get_magic(0,0)` has undefined behaviour. -/
theorem cnt_overflow_0_0 :
    ∃ l c, (searchTrace (get_table 0 0)).2 = l ++ [c] ∧
      c.isTrial = true ∧ c.st.cnt = INT_MAX ∧
      topBudgets (l ++ [c]) = [1, 2, 3, 4, 5, 6, 7, 8, 9] ∧
      numTrials (l ++ [c]) = 2 ^ 31 ∧
      search (get_table 0 0) = none ∧ get_magic 0 0 = Result.undefined := by
  obtain ⟨pfx, A, B, pre, mb, rest, hc, hz⟩ := get_table_0_0_stuck
  obtain ⟨h, l, c, e, h1, h2, h3, h4⟩ := search_overflow hc hz
  have hs : search (get_table 0 0) = none := by
    rw [← h, searchTrace_eq]
    exact (budgetTrace_result _ _ _).symm
  refine ⟨l, c, e, h1, h2, h3, h4, hs, ?_⟩
  unfold get_magic
  rw [hs]
  rfl

/-! ## The order of the candidates -/

end Magic
